import Mathlib

/-!
Verification of the MindMesh / Cortex "Semantic Recall Engine" against its
natural-language specification.

The TypeScript sources under `extension/src` are shallowly embedded:

* JavaScript numbers are modelled as exact real numbers (`ℝ`) — or as `ℚ`
  where the source only ever divides counts — with the 32-bit integer
  steps of the hash functions made explicit (`toInt32`);
* strings are Lean `String`s (or `List Char` inside the tokenizers);
* JavaScript `Map`s / IndexedDB object stores are insertion-ordered
  association lists with `put` = upsert;
* thrown exceptions are `Except String`.

Sources embedded here: `utils/vector-search.ts`, `utils/embedding.ts`,
`utils/storage.ts`, `utils/semantic-graph.ts`,
`services/session-service.ts`, `services/recall-service.ts`.

The file lists all definitions first, then the theorems that settle the
specification claims.
-/

namespace MindMesh

/-! ## Generic list utilities (Map / Set / Array.sort semantics) -/

/-- Insert `x` into a list sorted descending by `key` (before the first
strictly smaller element; `Array.prototype.sort` with comparator
`(a, b) => key b - key a` produces such an order). -/
def insertByDesc {α β : Type} [LinearOrder β] (key : α → β) (x : α) : List α → List α
  | [] => [x]
  | y :: ys => if key x < key y then y :: insertByDesc key x ys else x :: y :: ys

/-- Sort a list descending by `key`. -/
def sortByDesc {α β : Type} [LinearOrder β] (key : α → β) : List α → List α
  | [] => []
  | x :: xs => insertByDesc key x (sortByDesc key xs)

/-- The list is sorted descending by `key`. -/
def DescSorted {α β : Type} [LinearOrder β] (key : α → β) (l : List α) : Prop :=
  l.Pairwise (fun a b => key b ≤ key a)

/-- `Map.set` semantics: replace the value of an existing key in place,
otherwise append the binding. -/
def mapPut {α β : Type} [DecidableEq α] (m : List (α × β)) (k : α) (v : β) : List (α × β) :=
  if k ∈ m.map Prod.fst then m.map (fun p => if p.1 = k then (k, v) else p)
  else m ++ [(k, v)]

/-- `Map.get` semantics. -/
def lookupList {α β : Type} [DecidableEq α] (m : List (α × β)) (k : α) : Option β :=
  (m.find? (fun p => p.1 = k)).map Prod.snd

/-- `Set.add` semantics on an insertion-ordered list. -/
def addUnique (l : List String) (x : String) : List String :=
  if x ∈ l then l else l ++ [x]

/-! ## Vector arithmetic (`utils/vector-search.ts`) -/

/-- Sum of pairwise products (the loop body of `cosineSimilarity`). -/
def dotR (a b : List ℝ) : ℝ := (List.zipWith (fun x y => x * y) a b).sum

/-- Sum of squares (`vector.reduce((s, v) => s + v * v, 0)`). -/
def sumSq (v : List ℝ) : ℝ := (v.map (fun x => x * x)).sum

/-- `normalizeVector`: divide by the Euclidean norm, returning the vector
unchanged when the norm is zero. -/
noncomputable def normalizeVector (v : List ℝ) : List ℝ :=
  let norm := Real.sqrt (sumSq v)
  if norm = 0 then v else v.map (fun x => x / norm)

/-- `cosineSimilarity` from `vector-search.ts`: throws on a length
mismatch, otherwise returns the dot product (vectors are stored
normalized, so the dot product is the cosine). -/
def cosineSimilarity (a b : List ℝ) : Except String ℝ :=
  if a.length ≠ b.length then .error "Vector dimension mismatch"
  else .ok (dotR a b)

/-- The filtering loop shared by both index searches: walk the stored
(id, vector) pairs in order, compute the similarity of each with the
(already normalized) query, keep those at or above the threshold.  A
thrown dimension mismatch aborts the whole call. -/
noncomputable def collectSims (threshold : ℝ) (query : List ℝ) :
    List (String × List ℝ) → Except String (List (String × ℝ))
  | [] => .ok []
  | (id, vec) :: rest =>
    match cosineSimilarity query vec with
    | .error msg => .error msg
    | .ok sim =>
      match collectSims threshold query rest with
      | .error msg => .error msg
      | .ok tail => .ok (if threshold ≤ sim then (id, sim) :: tail else tail)

/-! ## Brute force index (`BruteForceIndex`) -/

/-- State of a `BruteForceIndex`: its `vectors` map. -/
structure BruteForceIndex where
  vectors : List (String × List ℝ)

/-- `BruteForceIndex.add`: store a normalized copy under the id. -/
noncomputable def BruteForceIndex.add (st : BruteForceIndex) (nodeId : String)
    (vector : List ℝ) : BruteForceIndex :=
  ⟨mapPut st.vectors nodeId (normalizeVector vector)⟩

/-- `BruteForceIndex.search`: normalize the query, score every stored
vector, filter by threshold, sort descending, truncate to `k`. -/
noncomputable def BruteForceIndex.search (st : BruteForceIndex) (queryVector : List ℝ)
    (k : ℕ) (threshold : ℝ) : Except String (List (String × ℝ)) :=
  let query := normalizeVector queryVector
  (collectSims threshold query st.vectors).map
    (fun results => (sortByDesc Prod.snd results).take k)

/-- `BruteForceIndex.remove`. -/
def BruteForceIndex.remove (st : BruteForceIndex) (nodeId : String) : BruteForceIndex :=
  ⟨st.vectors.filter (fun p => p.1 ≠ nodeId)⟩

/-! ## ANN index (`ANNIndex`, random-hyperplane LSH) -/

/-- State of an `ANNIndex`. -/
structure ANNIndex where
  vectors : List (String × List ℝ)
  hashes : List (String × ℕ)
  buckets : List (ℕ × List String)
  projectionMatrix : List (List ℝ)
  dim : Option ℕ
  numHashes : ℕ

/-- `initProjection`: on the first call fix the dimension and append the
`numHashes` sine-generated projection rows; later calls are no-ops. -/
noncomputable def ANNIndex.initProjection (st : ANNIndex) (d : ℕ) : ANNIndex :=
  if st.dim ≠ none then st
  else
    { st with
      dim := some d
      projectionMatrix := st.projectionMatrix ++
        (List.range st.numHashes).map (fun i =>
          (List.range d).map (fun j =>
            Real.sin ((i : ℝ) * 73856093 + (j : ℝ) * 19349663))) }

/-- The `H`-bit signature: bit `i` is set when the dot product with
projection row `i` is positive. -/
noncomputable def ANNIndex.hashBits (st : ANNIndex) (vector : List ℝ) : ℕ :=
  ((List.range st.numHashes).map (fun i =>
    if 0 < dotR vector (st.projectionMatrix.getD i []) then 2 ^ i else 0)).sum

/-- `ANNIndex.hash`: lazily initialize the projection, then throw on a
dimension mismatch, otherwise return the signature (together with the
possibly-updated state, since the source mutates `this`). -/
noncomputable def ANNIndex.hashOf (st : ANNIndex) (vector : List ℝ) :
    Except String (ANNIndex × ℕ) :=
  let st1 := st.initProjection vector.length
  if st1.dim ≠ some vector.length then .error "Vector dimension mismatch"
  else .ok (st1, st1.hashBits vector)

/-- Add an id to a hash bucket (`Set` semantics), creating the bucket if
needed. -/
def bucketAdd (bs : List (ℕ × List String)) (h : ℕ) (id : String) :
    List (ℕ × List String) :=
  if h ∈ bs.map Prod.fst then
    bs.map (fun p => if p.1 = h then (p.1, if id ∈ p.2 then p.2 else p.2 ++ [id]) else p)
  else bs ++ [(h, [id])]

/-- `ANNIndex.add`. -/
noncomputable def ANNIndex.add (st : ANNIndex) (nodeId : String) (vector : List ℝ) :
    Except String ANNIndex :=
  let v := normalizeVector vector
  (st.hashOf v).map (fun p =>
    { p.1 with
      vectors := mapPut p.1.vectors nodeId v
      hashes := mapPut p.1.hashes nodeId p.2
      buckets := bucketAdd p.1.buckets p.2 nodeId })

/-- Candidate gathering of `ANNIndex.search`: the query's bucket plus
every 1-bit-flip bucket, collected as an insertion-ordered set. -/
def annBucketCandidates (st : ANNIndex) (qh : ℕ) : List String :=
  let bucketKeys := qh :: (List.range st.numHashes).map (fun i => qh ^^^ 2 ^ i)
  bucketKeys.foldl (fun acc h => ((lookupList st.buckets h).getD []).foldl addUnique acc) []

/-- `ANNIndex.search`: hash the normalized query, gather bucket
candidates, widen to all stored ids when fewer than `k` candidates were
found, score the candidates, filter/sort/truncate as the exact index
does.  Returns the possibly-updated state (lazy projection init). -/
noncomputable def ANNIndex.search (st : ANNIndex) (queryVector : List ℝ)
    (k : ℕ) (threshold : ℝ) : Except String (ANNIndex × List (String × ℝ)) :=
  let query := normalizeVector queryVector
  match st.hashOf query with
  | .error msg => .error msg
  | .ok p =>
    let st1 := p.1
    let cands0 := annBucketCandidates st1 p.2
    let cands :=
      if cands0.length < k then st1.vectors.foldl (fun acc q => addUnique acc q.1) cands0
      else cands0
    match collectSims threshold query
        (cands.map (fun id => (id, (lookupList st1.vectors id).getD []))) with
    | .error msg => .error msg
    | .ok results => .ok (st1, (sortByDesc Prod.snd results).take k)

/-- `ANNIndex.remove`. -/
def ANNIndex.remove (st : ANNIndex) (nodeId : String) : ANNIndex :=
  { st with
    vectors := st.vectors.filter (fun p => p.1 ≠ nodeId)
    hashes := st.hashes.filter (fun p => p.1 ≠ nodeId)
    buckets :=
      match lookupList st.hashes nodeId with
      | none => st.buckets
      | some h => st.buckets.map (fun p =>
          if p.1 = h then (p.1, p.2.filter (fun id => id ≠ nodeId)) else p) }

/-- Well-formedness of an `ANNIndex` state with established dimension
`d`: every stored vector has length `d`, stored ids are distinct, and
buckets only hold stored ids.  (Maintained by `add`/`remove`; stated
explicitly because theorems quantify over states.) -/
def AnnWF (st : ANNIndex) (d : ℕ) : Prop :=
  st.dim = some d ∧
  (∀ p ∈ st.vectors, (p.2 : List ℝ).length = d) ∧
  (st.vectors.map Prod.fst).Nodup ∧
  (∀ b ∈ st.buckets, ∀ id ∈ b.2, id ∈ st.vectors.map Prod.fst)

/-- Search postcondition for the brute-force index (claim C1): on
success every entry is at or above the threshold, the list is sorted by
similarity descending and has at most `k` entries; a thrown error
produces no entries. -/
def searchPost (k : ℕ) (threshold : ℝ) : Except String (List (String × ℝ)) → Prop
  | .error _ => True
  | .ok l => (∀ e ∈ l, threshold ≤ e.2) ∧ DescSorted Prod.snd l ∧ l.length ≤ k

/-- Search postcondition for the ANN index (which also returns its
updated state). -/
def searchPostAnn (k : ℕ) (threshold : ℝ) :
    Except String (ANNIndex × List (String × ℝ)) → Prop
  | .error _ => True
  | .ok p => (∀ e ∈ p.2, threshold ≤ e.2) ∧ DescSorted Prod.snd p.2 ∧ p.2.length ≤ k

/-! ## Feature generator (`utils/embedding.ts`) -/

/-- ASCII lowercasing of one character (`String.prototype.toLowerCase`
restricted to ASCII, which is all the hashing pipeline distinguishes). -/
def toLowerChar (c : Char) : Char :=
  if 'A' ≤ c ∧ c ≤ 'Z' then Char.ofNat (c.toNat + 32) else c

/-- Lowercase a character list. -/
def lowerStr (s : List Char) : List Char := s.map toLowerChar

/-- JavaScript word character (`\w`). -/
def isWordChar (c : Char) : Bool := c.isAlphanum || c == '_'

/-- Maximal runs of word characters (the matches of `\b\w+\b`); `cur`
holds the current run reversed. -/
def wordRunsAux : List Char → List Char → List (List Char)
  | [], cur => if cur = [] then [] else [cur.reverse]
  | c :: cs, cur =>
    if isWordChar c then wordRunsAux cs (c :: cur)
    else if cur = [] then wordRunsAux cs [] else cur.reverse :: wordRunsAux cs []

/-- The matches of `\b\w{3,}\b`: maximal word-character runs of length at
least 3. -/
def wordsOf (s : List Char) : List (List Char) :=
  (wordRunsAux s []).filter (fun w => 3 ≤ w.length)

/-- One step of the word-frequency map construction (`Map` insertion
order preserved). -/
def bumpFreq (m : List (List Char × ℕ)) (w : List Char) : List (List Char × ℕ) :=
  if w ∈ m.map Prod.fst then m.map (fun p => if p.1 = w then (p.1, p.2 + 1) else p)
  else m ++ [(w, 1)]

/-- Word frequencies in first-occurrence order. -/
def wordFreqOf (ws : List (List Char)) : List (List Char × ℕ) := ws.foldl bumpFreq []

/-- Wrap an integer to the 32-bit two's-complement range (the `| 0`
coercion). -/
def toInt32 (x : ℤ) : ℤ := (x + 2 ^ 31) % 2 ^ 32 - 2 ^ 31

/-- One step of `hashWord`: `hash = ((hash << 5) - hash + charCode) | 0`
(the shift itself wraps to 32 bits). -/
def hashStep (h : ℤ) (c : Char) : ℤ := toInt32 (toInt32 (h * 32) - h + (c.toNat : ℤ))

/-- `hashWord(word, dim)`: iterate `hashStep`, then `Math.abs(hash) % dim`. -/
def hashWord (w : List Char) (dim : ℕ) : ℕ := (w.foldl hashStep 0).natAbs % dim

/-- `vector[idx] += x` on a list (indices are always `< 384` here). -/
def addAt (v : List ℝ) (i : ℕ) (x : ℝ) : List ℝ := v.set i (v.getD i 0 + x)

/-- `keywords.join(" ")`. -/
def joinSpace : List (List Char) → List Char
  | [] => []
  | [w] => w
  | w :: ws => w ++ [' '] ++ joinSpace ws

/-- The accumulated (pre-normalization) feature vector of
`generateEmbedding`: term-frequency hashing of the weighted text, a
fixed boost per keyword, and up to 20 title trigrams. -/
noncomputable def rawEmbedding (text title : String) (keywords : List String) : List ℝ :=
  let DIM := 384
  let textSample := lowerStr (text.toList.take 2000)
  let titleLow := lowerStr title.toList
  let keywordsStr := lowerStr (joinSpace (keywords.map String.toList))
  let allText := titleLow ++ [' '] ++ titleLow ++ [' '] ++ titleLow ++ [' '] ++
    keywordsStr ++ [' '] ++ keywordsStr ++ [' '] ++ textSample
  let words := wordsOf allText
  let wordFreq := wordFreqOf words
  let v0 : List ℝ := List.replicate DIM 0
  let v1 := wordFreq.foldl (fun v p =>
    let weight := Real.log (1 + (p.2 : ℝ))
    let sign : ℝ := if hashWord p.1 2 = 0 then 1 else -1
    (List.range 3).foldl
      (fun v seed => addAt v (hashWord (p.1 ++ Nat.toDigits 10 seed) DIM) (weight * sign))
      v) v0
  let v2 := keywords.foldl (fun v kw => addAt v (hashWord (lowerStr kw.toList) DIM) 2) v1
  let trigrams := (List.range (titleLow.length - 2)).map (fun i => (titleLow.drop i).take 3)
  (trigrams.take 20).foldl (fun v tg => addAt v (hashWord tg DIM) (1 / 2)) v2

/-- `generateEmbedding`: the accumulated feature vector, divided by its
Euclidean norm when that norm is positive and returned unchanged
otherwise.  (The record also carries a `model: "fallback"` tag, which no
claim observes.) -/
noncomputable def generateEmbedding (text title : String) (keywords : List String) : List ℝ :=
  let v := rawEmbedding text title keywords
  let norm := Real.sqrt (sumSq v)
  if 0 < norm then v.map (fun x => x / norm) else v

/-! ## Record store (`utils/storage.ts`) -/

/-- A stored page record (`MemoryNode`).  `metadata.domain` and
`metadata.sessionId` are flattened into fields; `timestamp` is an
integer epoch value. -/
structure MemoryNode where
  id : String
  url : String
  title : String
  readableText : String
  keywords : List String
  timestamp : ℤ
  domain : String
  sessionId : String
deriving DecidableEq

/-- A stored graph edge (`graph_edges` object store, keyPath `id`). -/
structure GraphEdge where
  id : String
  fromNode : String
  toNode : String
  strength : ℝ
  timestamp : ℤ

/-- The persistent state of `CortexStorage`: the three object stores the
claims observe.  An embeddings entry is keyed by node id and holds the
vector (the stored record's `model`/`timestamp` fields are observed by
no claim). -/
structure CortexStorage where
  pages : List MemoryNode
  embeddings : List (String × List ℝ)
  edges : List GraphEdge

/-- `getMemoryNode` (`request.result || null`). -/
def getMemoryNode (σ : CortexStorage) (id : String) : Option MemoryNode :=
  σ.pages.find? (fun n => n.id = id)

/-- `getAllMemoryNodes` (no limit): all pages sorted by timestamp
descending. -/
def getAllMemoryNodes (σ : CortexStorage) : List MemoryNode :=
  sortByDesc (fun n => n.timestamp) σ.pages

/-- `deleteMemoryNode`: one transaction deleting the page and its
embedding.  (Graph edges are not part of the transaction.) -/
def deleteMemoryNode (σ : CortexStorage) (id : String) : CortexStorage :=
  { σ with
    pages := σ.pages.filter (fun n => n.id ≠ id)
    embeddings := σ.embeddings.filter (fun p => p.1 ≠ id) }

/-- `deleteByDomain`: delete every node whose domain matches, returning
the deleted count. -/
def deleteByDomain (σ : CortexStorage) (domain : String) : CortexStorage × ℕ :=
  let toDelete := (getAllMemoryNodes σ).filter (fun n => n.domain = domain)
  (toDelete.foldl (fun acc n => deleteMemoryNode acc n.id) σ, toDelete.length)

/-- `deleteByDateRange`. -/
def deleteByDateRange (σ : CortexStorage) (startDate endDate : ℤ) : CortexStorage × ℕ :=
  let toDelete := (getAllMemoryNodes σ).filter
    (fun n => startDate ≤ n.timestamp ∧ n.timestamp ≤ endDate)
  (toDelete.foldl (fun acc n => deleteMemoryNode acc n.id) σ, toDelete.length)

/-- The module-private `cosineSimilarity` of `storage.ts`: length
mismatch and zero norms are reported as similarity `0`; otherwise the
dot product divided by the product of the norms. -/
noncomputable def storageCosineSimilarity (vecA vecB : List ℝ) : ℝ :=
  if vecA.length ≠ vecB.length then 0
  else
    let dotProduct := dotR vecA vecB
    let normA := sumSq vecA
    let normB := sumSq vecB
    if normA = 0 ∨ normB = 0 then 0
    else dotProduct / (Real.sqrt normA * Real.sqrt normB)

/-- `CortexStorage.vectorSearch`: score every stored embedding against
the query, keep scores at or above the threshold whose node still
exists, sort descending, truncate.  (The source returns full
`SemanticMatch` objects; claims only observe the id and similarity.) -/
noncomputable def vectorSearchStorage (σ : CortexStorage) (queryVector : List ℝ)
    (limit : ℕ) (threshold : ℝ) : List (String × ℝ) :=
  let found := σ.embeddings.filterMap (fun p =>
    let similarity := storageCosineSimilarity queryVector p.2
    if threshold ≤ similarity ∧ (getMemoryNode σ p.1).isSome
    then some (p.1, similarity) else none)
  (sortByDesc Prod.snd found).take limit

/-- Edge ids are `fromNode + ":" + toNode`. -/
def mkEdgeId (fromNode toNode : String) : String := fromNode ++ ":" ++ toNode

/-- IndexedDB `put` on the edges store (keyPath `id`): upsert. -/
def putEdge (es : List GraphEdge) (e : GraphEdge) : List GraphEdge :=
  if e.id ∈ es.map GraphEdge.id then es.map (fun x => if x.id = e.id then e else x)
  else es ++ [e]

/-- `addGraphEdge` (the `Date.now()` timestamp is passed explicitly). -/
def addGraphEdge (σ : CortexStorage) (fromNode toNode : String) (strength : ℝ)
    (now : ℤ) : CortexStorage :=
  { σ with edges := putEdge σ.edges ⟨mkEdgeId fromNode toNode, fromNode, toNode, strength, now⟩ }

/-- `getRelatedNodes`: outgoing edges of `nodeId` sorted by strength
descending, truncated to `limit`, resolved to the nodes that still
exist. -/
noncomputable def getRelatedNodes (σ : CortexStorage) (nodeId : String) (limit : ℕ) :
    List MemoryNode :=
  let sorted := sortByDesc (fun e => e.strength) (σ.edges.filter (fun e => e.fromNode = nodeId))
  ((sorted.take limit).map (fun e => e.toNode)).filterMap (fun id => getMemoryNode σ id)

/-- JavaScript `query.split(/\s+/)`: fields between maximal whitespace
runs, keeping empty boundary fields (`cur` is the current field
reversed). -/
def splitWsAux : List Char → List Char → List (List Char)
  | [], cur => [cur.reverse]
  | c :: cs, cur =>
    if c.isWhitespace then cur.reverse :: splitWsAux (cs.dropWhile Char.isWhitespace) []
    else splitWsAux cs (c :: cur)
termination_by s _ => s.length
decreasing_by
· simp only [List.length_cons]
  have := (List.dropWhile_sublist (p := Char.isWhitespace) (l := cs)).length_le
  omega
· simp [List.length_cons]

/-- `split(/\s+/)` on a character list. -/
def splitWs (s : List Char) : List (List Char) := splitWsAux s []

/-- Substring test (`String.prototype.includes`). -/
def containsSub (hay needle : List Char) : Bool :=
  (List.range (hay.length + 1)).any (fun i => needle.isPrefixOf (hay.drop i))

/-- The lowercased searchable text of a node:
`title + " " + readableText + " " + keywords.join(" ")`. -/
def searchText (n : MemoryNode) : List Char :=
  lowerStr (n.title.toList ++ [' '] ++ n.readableText.toList ++ [' '] ++
    joinSpace (n.keywords.map String.toList))

/-- Keyword score of a node: how many query terms its searchable text
contains. -/
def nodeScore (terms : List (List Char)) (n : MemoryNode) : ℕ :=
  (terms.filter (fun t => containsSub (searchText n) t)).length

/-- `searchMemoryNodes`: score all nodes by query-term containment, keep
positive scores, sort by score descending, truncate, return the
nodes. -/
def searchMemoryNodes (σ : CortexStorage) (query : String) (limit : ℕ) : List MemoryNode :=
  let queryTerms := splitWs (lowerStr query.toList)
  let scored := ((getAllMemoryNodes σ).map (fun n => (n, nodeScore queryTerms n))).filter
    (fun p => 0 < p.2)
  ((sortByDesc Prod.snd scored).take limit).map Prod.fst

/-! ## Semantic graph builder (`utils/semantic-graph.ts`) -/

/-- The similarity scan of `SemanticGraphBuilder.addNode`: walk all
stored embeddings, skip the node itself, keep cosine similarities at or
above `minSimilarity = 0.6`.  A dimension mismatch aborts the call. -/
noncomputable def collectSimilar (selfId : String) (vec : List ℝ) :
    List (String × List ℝ) → Except String (List (String × ℝ))
  | [] => .ok []
  | (nid, evec) :: rest =>
    if nid = selfId then collectSimilar selfId vec rest
    else
      match cosineSimilarity vec evec with
      | .error msg => .error msg
      | .ok sim =>
        match collectSimilar selfId vec rest with
        | .error msg => .error msg
        | .ok tail => .ok (if 3 / 5 ≤ sim then (nid, sim) :: tail else tail)

/-- The similar-node selection of `addNode`: sort the qualifying
candidates by similarity descending and keep the top
`maxEdgesPerNode = 10`. -/
noncomputable def topSimilar (selfId : String) (vec : List ℝ)
    (embeddings : List (String × List ℝ)) : Except String (List (String × ℝ)) :=
  (collectSimilar selfId vec embeddings).map (fun sims => (sortByDesc Prod.snd sims).take 10)

/-- `SemanticGraphBuilder.addNode`: persist a bidirectional edge pair of
equal strength for each selected similar node. -/
noncomputable def graphAddNode (σ : CortexStorage) (node : MemoryNode) (vec : List ℝ)
    (now : ℤ) : Except String CortexStorage :=
  (topSimilar node.id vec σ.embeddings).map (fun top =>
    top.foldl (fun acc p =>
      addGraphEdge (addGraphEdge acc node.id p.1 p.2 now) p.1 node.id p.2 now) σ)

/-- The neighbor ids `findPath` traverses: ids of
`getRelatedNodes(nodeId, 10)`. -/
noncomputable def relatedIdsOf (σ : CortexStorage) (nodeId : String) : List String :=
  (getRelatedNodes σ nodeId 10).map (fun n => n.id)

/-- Neighbor lookup in a materialized graph (association list from node
id to neighbor ids; absent keys have no neighbors). -/
def nbrs (g : List (String × List String)) (a : String) : List String :=
  (lookupList g a).getD []

/-- The BFS loop of `SemanticGraphBuilder.findPath`, transcribed
branch-for-branch: pop `(n, p)`; return `p` when `n` is the target;
discard the entry when the path has reached `maxDepth` nodes or `n` was
already expanded; otherwise mark `n` visited and enqueue its
not-yet-visited neighbors with the extended paths. -/
def bfsAux (g : List (String × List String)) (t : String) (maxDepth : ℕ) :
    List String → List (String × List String) → List String
  | _, [] => []
  | visited, (n, p) :: rest =>
    if n = t then p
    else if maxDepth ≤ p.length then bfsAux g t maxDepth visited rest
    else if n ∈ visited then bfsAux g t maxDepth visited rest
    else
      bfsAux g t maxDepth (n :: visited)
        (rest ++ ((nbrs g n).filter (fun m => m ∉ n :: visited)).map (fun m => (m, p ++ [m])))
termination_by visited queue =>
  ((g.map Prod.fst).toFinset \ visited.toFinset).card *
    ((g.map (fun q => q.2.length)).sum + 1) + queue.length
decreasing_by
· simp only [List.length_cons]; omega
· simp only [List.length_cons]; omega
· simp only [List.length_append, List.length_map, List.length_cons]
  by_cases hn : n ∈ (g.map Prod.fst).toFinset
  · have hcard : ((g.map Prod.fst).toFinset \ (n :: visited).toFinset).card + 1 ≤
        ((g.map Prod.fst).toFinset \ visited.toFinset).card := by
      have hss : (g.map Prod.fst).toFinset \ (n :: visited).toFinset ⊂
          (g.map Prod.fst).toFinset \ visited.toFinset := by
        constructor
        · intro x hx
          simp only [Finset.mem_sdiff, List.toFinset_cons, Finset.mem_insert,
            List.mem_toFinset] at hx ⊢
          exact ⟨hx.1, fun hxv => hx.2 (Or.inr hxv)⟩
        · intro hsub
          have hmem : n ∈ (g.map Prod.fst).toFinset \ visited.toFinset := by
            simp only [Finset.mem_sdiff, List.mem_toFinset]
            exact ⟨by simpa using hn, by assumption⟩
          have h2 := hsub hmem
          simp [List.toFinset_cons] at h2
      exact Nat.succ_le_of_lt (Finset.card_lt_card hss)
    have hpush : ((nbrs g n).filter (fun m => m ∉ n :: visited)).length ≤
        (g.map (fun q => q.2.length)).sum := by
      have h1 : ((nbrs g n).filter (fun m => m ∉ n :: visited)).length ≤
          (nbrs g n).length := List.length_filter_le _ _
      have h2 : (nbrs g n).length ≤ (g.map (fun q => q.2.length)).sum := by
        unfold nbrs lookupList
        cases hf : g.find? (fun p => p.1 = n) with
        | none => simp
        | some q =>
          have hq : q ∈ g := List.mem_of_find?_eq_some hf
          have : q.2.length ∈ g.map (fun q => q.2.length) := List.mem_map_of_mem _ hq
          simpa using List.single_le_sum (fun x _ => Nat.zero_le x) _ this
      omega
    set B := (g.map (fun q => q.2.length)).sum + 1
    set a := ((g.map Prod.fst).toFinset \ (n :: visited).toFinset).card
    set b := ((g.map Prod.fst).toFinset \ visited.toFinset).card
    calc a * B + (rest.length + ((nbrs g n).filter (fun m => m ∉ n :: visited)).length)
        < a * B + B + rest.length := by omega
      _ = (a + 1) * B + rest.length := by ring
      _ ≤ b * B + rest.length := by
          have := Nat.mul_le_mul_right B hcard
          omega
      _ < b * B + (rest.length + 1) := by omega
  · have hnone : lookupList g n = none := by
      unfold lookupList
      cases hf : g.find? (fun p => p.1 = n) with
      | none => rfl
      | some q =>
        exfalso
        have hq : q ∈ g := List.mem_of_find?_eq_some hf
        have hq1 : q.1 = n := by
          have := List.find?_some hf
          simpa using this
        exact hn (by
          simp only [List.mem_toFinset, List.mem_map]
          exact ⟨q, hq, hq1⟩)
    have hempty : (nbrs g n).filter (fun m => m ∉ n :: visited) = [] := by
      simp [nbrs, hnone]
    have hcard : ((g.map Prod.fst).toFinset \ (n :: visited).toFinset).card =
        ((g.map Prod.fst).toFinset \ visited.toFinset).card := by
      congr 1
      ext x
      simp only [Finset.mem_sdiff, List.toFinset_cons, Finset.mem_insert, List.mem_toFinset]
      constructor
      · rintro ⟨hx, hnx⟩; exact ⟨hx, fun h => hnx (Or.inr h)⟩
      · rintro ⟨hx, hnx⟩
        refine ⟨hx, ?_⟩
        rintro (rfl | h)
        · exact hn (by simpa using hx)
        · exact hnx h
    rw [hempty, hcard]
    simp

/-- The materialized `findPath` graph: every edge source mapped to its
`getRelatedNodes(·, 10)` ids. -/
noncomputable def graphOf (σ : CortexStorage) : List (String × List String) :=
  ((σ.edges.map GraphEdge.fromNode).dedup).map (fun a => (a, relatedIdsOf σ a))

/-- `SemanticGraphBuilder.findPath`: BFS from `fromNodeId` over the
related-node graph. -/
noncomputable def findPath (σ : CortexStorage) (fromNodeId toNodeId : String)
    (maxDepth : ℕ) : List String :=
  bfsAux (graphOf σ) toNodeId maxDepth [] [(fromNodeId, [fromNodeId])]

/-- A step of the neighbor relation: `b` is listed among `f a`. -/
def StepRel (f : String → List String) (a b : String) : Prop := b ∈ f a

/-- Walks of a given hop count along a neighbor function. -/
inductive Walk (f : String → List String) : String → String → ℕ → Prop
  | refl (a : String) : Walk f a a 0
  | step {a b c : String} {n : ℕ} : b ∈ f a → Walk f b c n → Walk f a c (n + 1)

/-- A nonempty id sequence that starts at `s` and follows the neighbor
relation. -/
def WalkListFrom (f : String → List String) (s : String) (p : List String) : Prop :=
  p.head? = some s ∧ List.Chain' (StepRel f) p

/-! ## Session service (`services/session-service.ts`) -/

/-- `calculateSessionSimilarity`: weighted overlap of the URL, keyword
and domain sets of two sessions.  JavaScript `Set`s are dedup'd lists;
each overlap is divided by the larger set size; both sessions empty is
`1`, exactly one empty is `0`.  The arithmetic only divides counts, so
it is modelled in `ℚ`. -/
def calculateSessionSimilarity (session1 session2 : List MemoryNode) : ℚ :=
  if session1.length = 0 ∧ session2.length = 0 then 1
  else if session1.length = 0 ∨ session2.length = 0 then 0
  else
    let urls1 := (session1.map (fun p => p.url)).dedup
    let urls2 := (session2.map (fun p => p.url)).dedup
    let urlOverlap := (urls1.filter (fun u => u ∈ urls2)).length
    let urlSimilarity : ℚ := (urlOverlap : ℚ) / (max urls1.length urls2.length : ℚ)
    let keywords1 := ((session1.map (fun p => p.keywords)).flatten).dedup
    let keywords2 := ((session2.map (fun p => p.keywords)).flatten).dedup
    let keywordOverlap := (keywords1.filter (fun kw => kw ∈ keywords2)).length
    let keywordSimilarity : ℚ :=
      if 0 < max keywords1.length keywords2.length then
        (keywordOverlap : ℚ) / (max keywords1.length keywords2.length : ℚ)
      else 0
    let domains1 := (session1.map (fun p => p.domain)).dedup
    let domains2 := (session2.map (fun p => p.domain)).dedup
    let domainOverlap := (domains1.filter (fun d => d ∈ domains2)).length
    let domainSimilarity : ℚ :=
      if 0 < max domains1.length domains2.length then
        (domainOverlap : ℚ) / (max domains1.length domains2.length : ℚ)
      else 0
    urlSimilarity * (1 / 2) + keywordSimilarity * (3 / 10) + domainSimilarity * (1 / 5)

/-- The Jaccard index of two finite string sets, as the specification's
formula `|A ∩ B| / |A ∪ B|` reads (stated for comparison with the
implementation; the source divides by `max |A| |B|` instead). -/
def jaccardQ (a b : Finset String) : ℚ := ((a ∩ b).card : ℚ) / ((a ∪ b).card : ℚ)

/-- URL set of a session. -/
def urlSet (s : List MemoryNode) : Finset String := (s.map (fun p => p.url)).toFinset

/-- Keyword set of a session. -/
def keywordSet (s : List MemoryNode) : Finset String :=
  ((s.map (fun p => p.keywords)).flatten).toFinset

/-- Domain set of a session. -/
def domainSet (s : List MemoryNode) : Finset String := (s.map (fun p => p.domain)).toFinset

/-- Overlap of two finite sets divided by the larger cardinality (the
quantity the implementation actually computes), with the `0`-guard of
the source. -/
def overlapFrac (a b : Finset String) : ℚ :=
  if 0 < max a.card b.card then ((a ∩ b).card : ℚ) / (max a.card b.card : ℚ) else 0

/-! ## Recall service (`services/recall-service.ts`) -/

/-- The query's own word tokens, passed as keywords to the feature
generator (`query.toLowerCase().match(/\b\w{3,}\b/g) || []`). -/
def recallQueryWords (query : String) : List String :=
  (wordsOf (lowerStr query.toList)).map (fun w => String.mk w)

/-- The vector-search phase of `RecallService.search`: the query is
embedded with itself as title and its word tokens as keywords. -/
noncomputable def recallVectorMatches (σ : CortexStorage) (query : String) (limit : ℕ)
    (threshold : ℝ) : List (String × ℝ) :=
  vectorSearchStorage σ (generateEmbedding query query (recallQueryWords query)) limit threshold

/-- `RecallService.search`: run the storage vector search and — when
fewer than 3 vector matches came back — augment with keyword-search
nodes not already present, each at the fixed synthetic similarity `0.2`,
then re-sort and truncate.  Claims observe (id, similarity) pairs. -/
noncomputable def recallSearch (σ : CortexStorage) (query : String) (limit : ℕ)
    (threshold : ℝ) : List (String × ℝ) :=
  let found := recallVectorMatches σ query limit threshold
  if found.length < 3 then
    let keywordNodes := searchMemoryNodes σ query limit
    let existingIds := found.map Prod.fst
    let additionalMatches := (keywordNodes.filter (fun n => n.id ∉ existingIds)).map
      (fun n => (n.id, (1 / 5 : ℝ)))
    (sortByDesc Prod.snd (found ++ additionalMatches)).take limit
  else found

/-! ## BFS invariants (for the `findPath` correctness proof) -/

/-- A queue entry whose path is a genuine walk from `s` ending at the
entry's node. -/
def EntryGood (f : String → List String) (s : String) (e : String × List String) : Prop :=
  e.2.head? = some s ∧ e.2.getLast? = some e.1 ∧ List.Chain' (StepRel f) e.2

/-- Vertex `x`, at position `i` of some walk from the start, is covered
by the BFS state: either already expanded at level at most `i`, or
present in the queue with a path of at most `i + 1` nodes. -/
def CoverAt (V : List String) (lev : String → ℕ) (Q : List (String × List String))
    (x : String) (i : ℕ) : Prop :=
  (x ∈ V ∧ lev x ≤ i) ∨ (∃ pe, (x, pe) ∈ Q ∧ pe.length ≤ i + 1)

/-- Some position of the walk `p` is covered by the BFS state. -/
def PathCovered (V : List String) (lev : String → ℕ) (Q : List (String × List String))
    (p : List String) : Prop :=
  ∃ i, i < p.length ∧ CoverAt V lev Q (p.getD i "") i

/-- The BFS loop invariant, relative to the neighbor function `f`, start
`s`, target `t` and depth bound `maxD`.  `lev` assigns to each expanded
vertex the hop count of the path it was expanded with. -/
structure Inv (f : String → List String) (s t : String) (maxD : ℕ)
    (V : List String) (Q : List (String × List String)) (lev : String → ℕ) : Prop where
  entries : ∀ e ∈ Q, EntryGood f s e ∧ e.2.length - 1 ≤ maxD - 1
  mono : Q.Pairwise (fun e e2 => e.2.length ≤ e2.2.length)
  spread : ∀ e ∈ Q, ∀ e2 ∈ Q, e2.2.length ≤ e.2.length + 1
  tFresh : t ∉ V
  visitedWalk : ∀ v ∈ V, Walk f s v (lev v)
  visitedMin : ∀ v ∈ V, ∀ j, Walk f s v j → lev v ≤ j
  closure : ∀ v ∈ V, ∀ w ∈ f v, w ∈ V ∨ (∃ pe, (w, pe) ∈ Q ∧ pe.length ≤ lev v + 2) ∨
    (w ≠ t ∧ maxD ≤ lev v + 2)
  cover1 : ∀ p, WalkListFrom f s p → p.length < maxD → PathCovered V lev Q p
  cover2 : ∀ p, WalkListFrom f s p → p.length = maxD → p.getLast? = some t →
    PathCovered V lev Q p
  startSeen : s = t → ∃ pe, (t, pe) ∈ Q

/-! ## Concrete states used by witnesses and counterexamples -/

/-- Shorthand node constructor. -/
def mkNode (id url title text : String) (kws : List String) (ts : ℤ)
    (dom sess : String) : MemoryNode :=
  ⟨id, url, title, text, kws, ts, dom, sess⟩

/-- Two records `a`, `b` with embeddings and a symmetric edge pair
between them (deletion scenario). -/
def storeDel : CortexStorage :=
  { pages := [mkNode "a" "ua" "ta" "" [] 0 "da" "s", mkNode "b" "ub" "tb" "" [] 1 "db" "s"]
    embeddings := [("a", [1]), ("b", [1])]
    edges := [⟨"a:b", "a", "b", 1, 0⟩, ⟨"b:a", "b", "a", 1, 0⟩] }

/-- One record whose stored embedding has length 2 (dimension-mismatch
scenario). -/
def storeMis : CortexStorage :=
  { pages := [mkNode "a" "ua" "ta" "" [] 0 "da" "s"]
    embeddings := [("a", [1, 1])]
    edges := [] }

/-- A four-node chain `a → b → c → d` in the edge store (path-finding
scenario). -/
def storePath : CortexStorage :=
  { pages := [mkNode "a" "ua" "" "" [] 0 "d" "s", mkNode "b" "ub" "" "" [] 0 "d" "s",
      mkNode "c" "uc" "" "" [] 0 "d" "s", mkNode "d" "ud" "" "" [] 0 "d" "s"]
    embeddings := []
    edges := [⟨"a:b", "a", "b", 1, 0⟩, ⟨"b:c", "b", "c", 1, 0⟩, ⟨"c:d", "c", "d", 1, 0⟩] }

/-- The stored embedding of the recall scenario: zero except for `99` at
index 0 and `20` at index 246 (so its norm is `101` and its cosine with
the unit vector `e₂₄₆` is `20 / 101 ≈ 0.198`). -/
noncomputable def recallVec : List ℝ := ((List.replicate 384 (0 : ℝ)).set 0 99).set 246 20

/-- Recall scenario: record `A` has the embedding above; record `B` has
no embedding but its title contains the query `"a-b"`. -/
noncomputable def storeRecall : CortexStorage :=
  { pages := [mkNode "A" "uA" "x" "y" [] 1 "d" "s", mkNode "B" "uB" "a-b" "" [] 0 "d" "s"]
    embeddings := [("A", recallVec)]
    edges := [] }

/-- Session with URLs `u1`, `u2` (shared keyword `k`, shared domain
`d`). -/
def sessOne : List MemoryNode :=
  [mkNode "1" "u1" "" "" ["k"] 0 "d" "s1", mkNode "2" "u2" "" "" ["k"] 0 "d" "s1"]

/-- Session with URLs `u2`, `u3` (shared keyword `k`, shared domain
`d`). -/
def sessTwo : List MemoryNode :=
  [mkNode "3" "u2" "" "" ["k"] 0 "d" "s2", mkNode "4" "u3" "" "" ["k"] 0 "d" "s2"]

/-- Empty ANN index with established dimension 1 (its projection matrix
is whatever `initProjection` materialized; the all-zero choice satisfies
the well-formedness theorems quantify over). -/
noncomputable def annEmpty : ANNIndex :=
  { vectors := [], hashes := [], buckets := [], projectionMatrix := List.replicate 16 [0]
    dim := some 1, numHashes := 16 }

/-- Empty brute-force index. -/
def bfEmpty : BruteForceIndex := ⟨[]⟩

/-- Embedding store for the graph-builder scenario: one qualifying
neighbor (`similarity 0.9 ≥ 0.6`) and one below the minimum
(`0.5 < 0.6`). -/
noncomputable def storeGraph : CortexStorage :=
  { pages := [], embeddings := [("A", [9 / 10]), ("B", [1 / 2])], edges := [] }

/-- The node added in the graph-builder scenario. -/
def nodeX : MemoryNode := mkNode "X" "uX" "" "" [] 0 "d" "s"

/-! # Theorems

First the generic helper lemmas, then one theorem (plus witness or
counterexample) per specification claim. -/

/-! ## Sorting lemmas -/

theorem perm_insertByDesc {α β : Type} [LinearOrder β] (key : α → β) (x : α) :
    ∀ l : List α, List.Perm (insertByDesc key x l) (x :: l)
  | [] => List.Perm.refl _
  | y :: ys => by
    unfold insertByDesc
    split
    · exact ((perm_insertByDesc key x ys).cons y).trans (List.Perm.swap x y ys)
    · exact List.Perm.refl _

theorem perm_sortByDesc {α β : Type} [LinearOrder β] (key : α → β) :
    ∀ l : List α, List.Perm (sortByDesc key l) l
  | [] => List.Perm.refl _
  | x :: xs =>
    (perm_insertByDesc key x (sortByDesc key xs)).trans ((perm_sortByDesc key xs).cons x)

theorem mem_sortByDesc {α β : Type} [LinearOrder β] {key : α → β} {l : List α} {a : α} :
    a ∈ sortByDesc key l ↔ a ∈ l :=
  (perm_sortByDesc key l).mem_iff

theorem length_sortByDesc {α β : Type} [LinearOrder β] (key : α → β) (l : List α) :
    (sortByDesc key l).length = l.length :=
  (perm_sortByDesc key l).length_eq

theorem sorted_insertByDesc {α β : Type} [LinearOrder β] (key : α → β) (x : α) :
    ∀ l : List α, DescSorted key l → DescSorted key (insertByDesc key x l) := by
  intro l
  induction l with
  | nil => intro _; simp [insertByDesc, DescSorted]
  | cons y ys ih =>
    intro h
    have hy : ∀ b ∈ ys, key b ≤ key y := fun b hb => List.rel_of_pairwise_cons h hb
    have hys : DescSorted key ys := h.of_cons
    unfold insertByDesc
    split
    · rename_i hlt
      refine List.Pairwise.cons ?_ (ih hys)
      intro b hb
      rcases List.mem_cons.mp (((perm_insertByDesc key x ys).mem_iff).mp hb) with rfl | hb2
      · exact le_of_lt hlt
      · exact hy b hb2
    · rename_i hge
      refine List.Pairwise.cons ?_ h
      intro b hb
      rcases List.mem_cons.mp hb with rfl | hb2
      · exact not_lt.mp hge
      · exact le_trans (hy b hb2) (not_lt.mp hge)

theorem sorted_sortByDesc {α β : Type} [LinearOrder β] (key : α → β) :
    ∀ l : List α, DescSorted key (sortByDesc key l)
  | [] => by simp [sortByDesc, DescSorted]
  | x :: xs => sorted_insertByDesc key x _ (sorted_sortByDesc key xs)

theorem descSorted_take {α β : Type} [LinearOrder β] {key : α → β} {l : List α}
    (h : DescSorted key l) (n : ℕ) : DescSorted key (l.take n) :=
  h.sublist (List.take_sublist n l)

/-- Everything a descending sort truncates away is bounded by everything
it keeps. -/
theorem descSorted_take_out {α β : Type} [LinearOrder β] {key : α → β} {l : List α}
    (h : DescSorted key l) {k : ℕ} {x : α} (hx : x ∈ l) (hnx : x ∉ l.take k) :
    ∀ y ∈ l.take k, key x ≤ key y := by
  intro y hy
  have hsplit : l.take k ++ l.drop k = l := List.take_append_drop k l
  have h2 : (l.take k ++ l.drop k).Pairwise (fun a b => key b ≤ key a) := by
    rw [hsplit]; exact h
  have h3 := (List.pairwise_append.mp h2).2.2
  have hxd : x ∈ l.drop k := by
    rcases List.mem_append.mp (by rw [hsplit]; exact hx) with h4 | h4
    · exact absurd h4 hnx
    · exact h4
  exact h3 y hy x hxd

/-! ## Claim C1: index search postconditions -/

theorem collectSims_ok_thresh (threshold : ℝ) (query : List ℝ) :
    ∀ (m : List (String × List ℝ)) (l : List (String × ℝ)),
      collectSims threshold query m = .ok l → ∀ e ∈ l, threshold ≤ e.2 := by
  intro m
  induction m with
  | nil =>
    intro l hl
    simp only [collectSims] at hl
    cases hl
    simp
  | cons hd tl ih =>
    intro l hl
    obtain ⟨id, vec⟩ := hd
    simp only [collectSims] at hl
    cases h1 : cosineSimilarity query vec with
    | error msg => rw [h1] at hl; cases hl
    | ok sim =>
      rw [h1] at hl
      cases h2 : collectSims threshold query tl with
      | error msg => rw [h2] at hl; cases hl
      | ok tail =>
        rw [h2] at hl
        cases hl
        intro e he
        by_cases hth : threshold ≤ sim
        · rw [if_pos hth] at he
          rcases List.mem_cons.mp he with rfl | he2
          · exact hth
          · exact ih tail h2 e he2
        · rw [if_neg hth] at he
          exact ih tail h2 e he

/-- The common filter/sort/truncate tail of both searches satisfies the
search postcondition. -/
theorem searchPost_of_collect {k : ℕ} {threshold : ℝ} {results : List (String × ℝ)}
    (hthresh : ∀ e ∈ results, threshold ≤ e.2) :
    (∀ e ∈ (sortByDesc Prod.snd results).take k, threshold ≤ e.2) ∧
      DescSorted Prod.snd ((sortByDesc Prod.snd results).take k) ∧
      ((sortByDesc Prod.snd results).take k).length ≤ k := by
  refine ⟨?_, descSorted_take (sorted_sortByDesc Prod.snd results) k, ?_⟩
  · intro e he
    exact hthresh e (mem_sortByDesc.mp (List.mem_of_mem_take he))
  · simp [List.length_take]

/-- C1.  For every query vector `q`, every `k` and every threshold `t`,
`search(q, k, t)` — on the brute-force index and on the ANN index alike,
in any state — returns only entries with similarity at least `t`, sorted
by similarity descending, and at most `k` of them (a thrown dimension
mismatch produces no entries at all). -/
theorem C1_search_postcondition (bf : BruteForceIndex) (ann : ANNIndex)
    (q : List ℝ) (k : ℕ) (t : ℝ) :
    searchPost k t (bf.search q k t) ∧ searchPostAnn k t (ann.search q k t) := by
  constructor
  · unfold BruteForceIndex.search
    cases h : collectSims t (normalizeVector q) bf.vectors with
    | error msg => simp [h, Except.map, searchPost]
    | ok results =>
      simp only [h, Except.map, searchPost]
      exact searchPost_of_collect (collectSims_ok_thresh t (normalizeVector q) _ _ h)
  · simp only [ANNIndex.search]
    split
    · simp [searchPostAnn]
    · split
      · simp [searchPostAnn]
      · rename_i results hcol
        simp only [searchPostAnn]
        exact searchPost_of_collect (collectSims_ok_thresh t (normalizeVector q) _ _ hcol)

/-! ## Claim C5: the feature generator is pure and deterministic -/

/-- C5.  `generateEmbedding` reads no state outside its arguments (its
source touches no randomness, clock, network or module state), so it is
embedded as a pure function; two runs on identical inputs return
bit-identical vectors. -/
theorem C5_generateEmbedding_deterministic (text1 text2 title1 title2 : String)
    (kws1 kws2 : List String) (ht : text1 = text2) (hti : title1 = title2)
    (hk : kws1 = kws2) :
    generateEmbedding text1 title1 kws1 = generateEmbedding text2 title2 kws2 := by
  subst ht; subst hti; subst hk; rfl

theorem C5_witness :
    ("abc" : String) = "abc" ∧ ("t" : String) = "t" ∧ (["k"] : List String) = ["k"] ∧
      generateEmbedding "abc" "t" ["k"] = generateEmbedding "abc" "t" ["k"] :=
  ⟨rfl, rfl, rfl, C5_generateEmbedding_deterministic "abc" "abc" "t" "t" ["k"] ["k"] rfl rfl rfl⟩

/-! ## Embedding evaluation lemmas -/

theorem length_addAt (v : List ℝ) (i : ℕ) (x : ℝ) : (addAt v i x).length = v.length := by
  simp [addAt]

theorem length_foldl {β : Type} (step : List ℝ → β → List ℝ)
    (h : ∀ v b, (step v b).length = v.length) :
    ∀ (l : List β) (v : List ℝ), (l.foldl step v).length = v.length := by
  intro l
  induction l with
  | nil => intro v; rfl
  | cons b bs ih => intro v; rw [List.foldl_cons, ih, h]

theorem length_rawEmbedding (text title : String) (keywords : List String) :
    (rawEmbedding text title keywords).length = 384 := by
  simp only [rawEmbedding]
  rw [length_foldl _ (fun v tg => length_addAt v _ _),
    length_foldl _ (fun v kw => length_addAt v _ _),
    length_foldl _ (fun v p =>
      length_foldl _ (fun v2 seed => length_addAt v2 _ _) _ v)]
  exact List.length_replicate 384 0

theorem sumSq_nonneg (v : List ℝ) : 0 ≤ sumSq v := by
  unfold sumSq
  apply List.sum_nonneg
  intro x hx
  obtain ⟨y, _, rfl⟩ := List.mem_map.mp hx
  exact mul_self_nonneg y

theorem sumSq_map_div (v : List ℝ) (c : ℝ) :
    sumSq (v.map (fun x => x / c)) = sumSq v / (c * c) := by
  unfold sumSq
  induction v with
  | nil => simp
  | cons a l ih =>
    simp only [List.map_cons, List.sum_cons, ih]
    ring

theorem sumSq_replicate_zero (n : ℕ) : sumSq (List.replicate n (0 : ℝ)) = 0 := by
  unfold sumSq
  simp

theorem getD_replicate {α : Type} (a d : α) :
    ∀ (n i : ℕ), i < n → (List.replicate n a).getD i d = a := by
  intro n
  induction n with
  | zero => intro i h; omega
  | succ m ih =>
    intro i h
    cases i with
    | zero => rfl
    | succ j => simpa [List.replicate_succ, List.getD_cons_succ] using ih j (by omega)

theorem sumSq_set_replicate (x : ℝ) :
    ∀ (n i : ℕ), i < n → sumSq ((List.replicate n (0 : ℝ)).set i x) = x * x := by
  intro n
  induction n with
  | zero => intro i h; omega
  | succ m ih =>
    intro i h
    cases i with
    | zero =>
      simp only [List.replicate_succ, List.set_cons_zero]
      unfold sumSq
      simp
    | succ j =>
      simp only [List.replicate_succ, List.set_cons_succ]
      unfold sumSq
      simp only [List.map_cons, List.sum_cons]
      have := ih j (by omega)
      unfold sumSq at this
      rw [this]
      ring

/-! ## Claim C3: feature generator output shape -/

/-- C3 (counterexample).  On the empty input the generator returns the
zero vector itself — the accumulated vector is all zeros, the `norm > 0`
guard fails, and no replacement by a fixed unit vector happens — so the
output's Euclidean norm is `0`, not `1`. -/
theorem C3_counterexample :
    generateEmbedding "" "" [] = List.replicate 384 (0 : ℝ) ∧
      Real.sqrt (sumSq (generateEmbedding "" "" [])) ≠ 1 := by
  have hraw : rawEmbedding "" "" [] = List.replicate 384 (0 : ℝ) := rfl
  have hz : sumSq (List.replicate 384 (0 : ℝ)) = 0 := sumSq_replicate_zero 384
  have hgen : generateEmbedding "" "" [] = List.replicate 384 (0 : ℝ) := by
    simp only [generateEmbedding]
    rw [hraw, hz, Real.sqrt_zero]
    simp
  refine ⟨hgen, ?_⟩
  rw [hgen, hz, Real.sqrt_zero]
  norm_num

/-- C3 (amended).  For every input the generator returns a vector of
dimension 384 with no undefined components (the arithmetic is total in
the real-number model); whenever the accumulated feature vector is
nonzero the output's Euclidean norm is exactly 1, and when the
accumulated vector is all zeros (e.g. on empty input) that zero vector
is returned unchanged rather than replaced by a fixed unit vector. -/
theorem C3_generateEmbedding_amended (text title : String) (keywords : List String) :
    (generateEmbedding text title keywords).length = 384 ∧
      (sumSq (rawEmbedding text title keywords) ≠ 0 →
        Real.sqrt (sumSq (generateEmbedding text title keywords)) = 1) ∧
      (sumSq (rawEmbedding text title keywords) = 0 →
        generateEmbedding text title keywords = rawEmbedding text title keywords) := by
  have hlen : (rawEmbedding text title keywords).length = 384 :=
    length_rawEmbedding text title keywords
  refine ⟨?_, ?_, ?_⟩
  · simp only [generateEmbedding]
    split
    · simpa using hlen
    · exact hlen
  · intro hne
    have hpos : 0 < sumSq (rawEmbedding text title keywords) :=
      lt_of_le_of_ne (sumSq_nonneg _) (Ne.symm hne)
    have hnorm : 0 < Real.sqrt (sumSq (rawEmbedding text title keywords)) :=
      Real.sqrt_pos.mpr hpos
    simp only [generateEmbedding]
    rw [if_pos hnorm, sumSq_map_div, Real.mul_self_sqrt (le_of_lt hpos),
      div_self (ne_of_gt hpos), Real.sqrt_one]
  · intro h0
    simp only [generateEmbedding]
    rw [h0, Real.sqrt_zero]
    simp

theorem C3_witness :
    sumSq (rawEmbedding "" "" ["a"]) ≠ 0 ∧
      Real.sqrt (sumSq (generateEmbedding "" "" ["a"])) = 1 := by
  have hraw : rawEmbedding "" "" ["a"] =
      (List.replicate 384 (0 : ℝ)).set 97 ((List.replicate 384 (0 : ℝ)).getD 97 0 + 2) := rfl
  have hne : sumSq (rawEmbedding "" "" ["a"]) ≠ 0 := by
    rw [hraw, getD_replicate _ _ 384 97 (by norm_num), sumSq_set_replicate _ 384 97 (by norm_num)]
    norm_num
  exact ⟨hne, (C3_generateEmbedding_amended "" "" ["a"]).2.1 hne⟩

/-! ## Claim C2: cascading deletion -/

/-- C2.  Deleting record `b` (here through `deleteByDomain`, which
delegates to `deleteMemoryNode`) removes the page and its embedding but
leaves both incident graph edges in the edge store — the claimed
cascading edge deletion is not implemented. -/
theorem C2_delete_keeps_incident_edges :
    ((deleteByDomain storeDel "db").1.pages.map MemoryNode.id = ["a"]) ∧
      ((deleteByDomain storeDel "db").1.embeddings.map Prod.fst = ["a"]) ∧
      (∃ e ∈ (deleteByDomain storeDel "db").1.edges, e.fromNode = "a" ∧ e.toNode = "b") ∧
      (∃ e ∈ (deleteByDomain storeDel "db").1.edges, e.fromNode = "b" ∧ e.toNode = "a") := by
  have hedges : (deleteByDomain storeDel "db").1.edges = storeDel.edges := rfl
  refine ⟨rfl, rfl, ?_, ?_⟩
  · exact ⟨⟨"a:b", "a", "b", 1, 0⟩, by rw [hedges]; exact List.mem_cons_self _ _, rfl, rfl⟩
  · exact ⟨⟨"b:a", "b", "a", 1, 0⟩, by
      rw [hedges]
      exact List.mem_cons_of_mem _ (List.mem_cons_self _ _), rfl, rfl⟩

/-! ## Claim C4: dimension mismatch handling -/

theorem length_normalizeVector (v : List ℝ) : (normalizeVector v).length = v.length := by
  simp only [normalizeVector]
  split
  · rfl
  · simp

theorem collectSims_error_of_mismatch (t : ℝ) (query : List ℝ) :
    ∀ m : List (String × List ℝ), (∃ p ∈ m, (p.2 : List ℝ).length ≠ query.length) →
      ∃ msg, collectSims t query m = .error msg := by
  intro m
  induction m with
  | nil => rintro ⟨p, hp, _⟩; cases hp
  | cons hd tl ih =>
    rintro ⟨p, hp, hlen⟩
    obtain ⟨id, vec⟩ := hd
    by_cases hv : vec.length = query.length
    · have hp2 : p ∈ tl := by
        rcases List.mem_cons.mp hp with rfl | h2
        · exact absurd hv hlen
        · exact h2
      obtain ⟨msg, hmsg⟩ := ih ⟨p, hp2, hlen⟩
      have h1 : cosineSimilarity query vec = .ok (dotR query vec) := by
        unfold cosineSimilarity
        rw [if_neg (by simp [hv])]
      refine ⟨msg, ?_⟩
      show collectSims t query ((id, vec) :: tl) = .error msg
      unfold collectSims
      rw [h1, hmsg]
    · refine ⟨"Vector dimension mismatch", ?_⟩
      have h1 : cosineSimilarity query vec = .error "Vector dimension mismatch" := by
        unfold cosineSimilarity
        rw [if_pos (fun h => hv h.symm)]
      show collectSims t query ((id, vec) :: tl) = _
      unfold collectSims
      rw [h1]

/-- C4 (amended).  Both vector-index searches do fail with the
`DimensionMismatch` error on a length disagreement — the brute-force
index whenever any stored vector's length differs from the query's, the
ANN index whenever the query's length differs from the established
dimension — but the storage layer's own cosine helper instead reports a
mismatch as similarity `0`, silently excluding the pair from
`vectorSearch` results. -/
theorem C4_dimension_mismatch_amended :
    (∀ (st : BruteForceIndex) (q : List ℝ) (k : ℕ) (t : ℝ),
        (∃ p ∈ st.vectors, (p.2 : List ℝ).length ≠ q.length) →
        ∃ msg, st.search q k t = .error msg) ∧
      (∀ (st : ANNIndex) (q : List ℝ) (k : ℕ) (t : ℝ) (d : ℕ),
        st.dim = some d → q.length ≠ d → ∃ msg, st.search q k t = .error msg) ∧
      (∀ a b : List ℝ, a.length ≠ b.length → storageCosineSimilarity a b = 0) := by
  refine ⟨?_, ?_, ?_⟩
  · intro st q k t hmis
    have hq : (normalizeVector q).length = q.length := length_normalizeVector q
    obtain ⟨msg, hmsg⟩ := collectSims_error_of_mismatch t (normalizeVector q) st.vectors
      (by obtain ⟨p, hp, hlen⟩ := hmis; exact ⟨p, hp, by rw [hq]; exact hlen⟩)
    refine ⟨msg, ?_⟩
    simp only [BruteForceIndex.search]
    rw [hmsg]
    rfl
  · intro st q k t d hdim hne
    refine ⟨"Vector dimension mismatch", ?_⟩
    have hinit : st.initProjection (normalizeVector q).length = st := by
      unfold ANNIndex.initProjection
      rw [if_pos (by rw [hdim]; exact fun h => Option.noConfusion h)]
    have hhash : st.hashOf (normalizeVector q) = .error "Vector dimension mismatch" := by
      unfold ANNIndex.hashOf
      rw [hinit]
      rw [if_pos ?_]
      rw [hdim, length_normalizeVector]
      intro h
      exact hne (Option.some_injective _ h).symm
    simp only [ANNIndex.search]
    rw [hhash]
  · intro a b hab
    simp only [storageCosineSimilarity]
    rw [if_pos hab]

theorem C4_witness :
    (∃ msg, BruteForceIndex.search ⟨[("a", [1, 0])]⟩ [1] 1 0 = .error msg) ∧
      (∃ msg, ANNIndex.search annEmpty [0, 0] 1 0 = .error msg) ∧
      storageCosineSimilarity [1, 0, 0] [1, 1] = 0 := by
  refine ⟨?_, ?_, ?_⟩
  · exact C4_dimension_mismatch_amended.1 ⟨[("a", [1, 0])]⟩ [1] 1 0
      ⟨("a", [1, 0]), List.mem_cons_self _ _, by norm_num⟩
  · exact C4_dimension_mismatch_amended.2.1 annEmpty [0, 0] 1 0 1 rfl (by norm_num)
  · exact C4_dimension_mismatch_amended.2.2 [1, 0, 0] [1, 1] (by norm_num)

/-- C4 (counterexample to the claim as stated).  With a stored embedding
of length 2 and a query of length 3, the storage vector search does not
fail with a `DimensionMismatch` error: the mismatch is reported as
similarity `0` and the search succeeds with an empty result. -/
theorem C4_counterexample :
    storageCosineSimilarity [1, 0, 0] [1, 1] = 0 ∧
      vectorSearchStorage storeMis [1, 0, 0] 10 (1 / 2) = [] := by
  have h0 : storageCosineSimilarity [1, 0, 0] [1, 1] = 0 := by
    simp only [storageCosineSimilarity]
    rw [if_pos (by norm_num)]
  refine ⟨h0, ?_⟩
  have hne : ¬ ((1 / 2 : ℝ) ≤ storageCosineSimilarity [1, 0, 0] [1, 1] ∧
      (getMemoryNode storeMis "a").isSome) := by
    rw [h0]; norm_num
  simp only [vectorSearchStorage]
  rw [show storeMis.embeddings = [("a", [1, 1])] from rfl]
  simp only [List.filterMap_cons, List.filterMap_nil]
  rw [if_neg hne]
  rfl

/-! ## Claim C8: session similarity -/

theorem dedup_length_toFinset (l : List String) : l.dedup.length = l.toFinset.card :=
  (List.card_toFinset l).symm

theorem filter_dedup_inter_card (l1 l2 : List String) :
    (l1.dedup.filter (fun u => u ∈ l2.dedup)).length = (l1.toFinset ∩ l2.toFinset).card := by
  have hnd : (l1.dedup.filter (fun u => u ∈ l2.dedup)).Nodup := l1.nodup_dedup.filter _
  rw [← List.toFinset_card_of_nodup hnd]
  congr 1
  ext x
  simp [List.mem_filter, List.mem_dedup, Finset.mem_inter]

/-- C8 (counterexample).  On the sessions `{u1, u2}` and `{u2, u3}`
(identical keyword and domain sets) the implementation returns `3 / 4`
— it divides the URL overlap by the larger set size (`1 / 2`) — while
the claimed Jaccard formula gives `2 / 3` (URL Jaccard `1 / 3`). -/
theorem C8_counterexample :
    calculateSessionSimilarity sessOne sessTwo = 3 / 4 ∧
      (1 / 2) * jaccardQ (urlSet sessOne) (urlSet sessTwo) +
        (3 / 10) * jaccardQ (keywordSet sessOne) (keywordSet sessTwo) +
        (1 / 5) * jaccardQ (domainSet sessOne) (domainSet sessTwo) = 2 / 3 ∧
      calculateSessionSimilarity sessOne sessTwo ≠
        (1 / 2) * jaccardQ (urlSet sessOne) (urlSet sessTwo) +
          (3 / 10) * jaccardQ (keywordSet sessOne) (keywordSet sessTwo) +
          (1 / 5) * jaccardQ (domainSet sessOne) (domainSet sessTwo) := by
  have e1 : (sessOne.map (fun p => p.url)).dedup = ["u1", "u2"] := rfl
  have e2 : (sessTwo.map (fun p => p.url)).dedup = ["u2", "u3"] := rfl
  have e3 : ((sessOne.map (fun p => p.keywords)).flatten).dedup = ["k"] := rfl
  have e4 : ((sessTwo.map (fun p => p.keywords)).flatten).dedup = ["k"] := rfl
  have e5 : (sessOne.map (fun p => p.domain)).dedup = ["d"] := rfl
  have e6 : (sessTwo.map (fun p => p.domain)).dedup = ["d"] := rfl
  have hsim : calculateSessionSimilarity sessOne sessTwo = 3 / 4 := by
    simp only [calculateSessionSimilarity]
    rw [if_neg (by decide), if_neg (by decide), e1, e2, e3, e4, e5, e6,
      show (["u1", "u2"].filter (fun u => u ∈ (["u2", "u3"] : List String))).length = 1 from rfl,
      show ((["k"] : List String).filter (fun kw => kw ∈ (["k"] : List String))).length = 1
        from rfl,
      show ((["d"] : List String).filter (fun d => d ∈ (["d"] : List String))).length = 1
        from rfl]
    simp
    norm_num
  have hj : (1 / 2) * jaccardQ (urlSet sessOne) (urlSet sessTwo) +
      (3 / 10) * jaccardQ (keywordSet sessOne) (keywordSet sessTwo) +
      (1 / 5) * jaccardQ (domainSet sessOne) (domainSet sessTwo) = 2 / 3 := by
    have c1 : (urlSet sessOne ∩ urlSet sessTwo).card = 1 := by decide
    have c2 : (urlSet sessOne ∪ urlSet sessTwo).card = 3 := by decide
    have c3 : (keywordSet sessOne ∩ keywordSet sessTwo).card = 1 := by decide
    have c4 : (keywordSet sessOne ∪ keywordSet sessTwo).card = 1 := by decide
    have c5 : (domainSet sessOne ∩ domainSet sessTwo).card = 1 := by decide
    have c6 : (domainSet sessOne ∪ domainSet sessTwo).card = 1 := by decide
    unfold jaccardQ
    rw [c1, c2, c3, c4, c5, c6]
    norm_num
  refine ⟨hsim, hj, ?_⟩
  rw [hsim, hj]
  norm_num

/-- C8 (amended).  The session similarity is
`0.5·urlOverlap + 0.3·keywordOverlap + 0.2·domainOverlap` where each
overlap is the intersection cardinality divided by the *larger* of the
two set cardinalities (not the Jaccard union denominator), with the
keyword and domain terms defined as `0` when both sets are empty; two
empty sessions have similarity 1 and exactly one empty session gives
0. -/
theorem C8_session_similarity_amended (s1 s2 : List MemoryNode) :
    (s1 = [] → s2 = [] → calculateSessionSimilarity s1 s2 = 1) ∧
      ((s1 = [] ∧ s2 ≠ []) ∨ (s1 ≠ [] ∧ s2 = []) → calculateSessionSimilarity s1 s2 = 0) ∧
      (s1 ≠ [] → s2 ≠ [] → calculateSessionSimilarity s1 s2 =
        overlapFrac (urlSet s1) (urlSet s2) * (1 / 2) +
        overlapFrac (keywordSet s1) (keywordSet s2) * (3 / 10) +
        overlapFrac (domainSet s1) (domainSet s2) * (1 / 5)) := by
  refine ⟨?_, ?_, ?_⟩
  · rintro rfl rfl; rfl
  · rintro (⟨rfl, h2⟩ | ⟨h1, rfl⟩)
    · have h2len : s2.length ≠ 0 := fun h => h2 (List.length_eq_zero.mp h)
      simp only [calculateSessionSimilarity]
      rw [if_neg (by simpa using h2len),
        if_pos (show ([] : List MemoryNode).length = 0 ∨ s2.length = 0 from Or.inl rfl)]
    · have h1len : s1.length ≠ 0 := fun h => h1 (List.length_eq_zero.mp h)
      simp only [calculateSessionSimilarity]
      rw [if_neg (by simp [h1len]),
        if_pos (show s1.length = 0 ∨ ([] : List MemoryNode).length = 0 from Or.inr rfl)]
  · intro h1 h2
    have h1len : s1.length ≠ 0 := fun h => h1 (List.length_eq_zero.mp h)
    have h2len : s2.length ≠ 0 := fun h => h2 (List.length_eq_zero.mp h)
    have hurl1 : 0 < (urlSet s1).card := by
      obtain ⟨a, as, rfl⟩ := List.exists_cons_of_ne_nil h1
      exact Finset.card_pos.mpr ⟨a.url, by simp [urlSet]⟩
    simp only [calculateSessionSimilarity]
    rw [if_neg (by simp [h1len]), if_neg (by simp [h1len, h2len])]
    rw [filter_dedup_inter_card, filter_dedup_inter_card, filter_dedup_inter_card,
      dedup_length_toFinset, dedup_length_toFinset, dedup_length_toFinset,
      dedup_length_toFinset, dedup_length_toFinset, dedup_length_toFinset]
    simp only [overlapFrac, urlSet, keywordSet, domainSet]
    rw [if_pos (show 0 < max ((s1.map (fun p => p.url)).toFinset.card)
      ((s2.map (fun p => p.url)).toFinset.card) from
      lt_of_lt_of_le (by simpa [urlSet] using hurl1) (le_max_left _ _))]

theorem C8_witness :
    calculateSessionSimilarity [] [] = 1 ∧
      calculateSessionSimilarity [] sessTwo = 0 ∧
      calculateSessionSimilarity sessOne sessTwo =
        overlapFrac (urlSet sessOne) (urlSet sessTwo) * (1 / 2) +
        overlapFrac (keywordSet sessOne) (keywordSet sessTwo) * (3 / 10) +
        overlapFrac (domainSet sessOne) (domainSet sessTwo) * (1 / 5) :=
  ⟨(C8_session_similarity_amended [] []).1 rfl rfl,
    (C8_session_similarity_amended [] sessTwo).2.1 (Or.inl ⟨rfl, by decide⟩),
    (C8_session_similarity_amended sessOne sessTwo).2.2 (by decide) (by decide)⟩

/-! ## Association list and candidate-set lemmas -/

theorem mem_addUnique {l : List String} {x y : String} :
    y ∈ addUnique l x ↔ y ∈ l ∨ y = x := by
  unfold addUnique
  split
  · rename_i hx
    constructor
    · exact Or.inl
    · rintro (h | rfl)
      · exact h
      · exact hx
  · simp

theorem nodup_addUnique {l : List String} (h : l.Nodup) (x : String) :
    (addUnique l x).Nodup := by
  unfold addUnique
  split
  · exact h
  · rename_i hx
    simpa [List.nodup_append] using ⟨h, fun h2 => hx h2⟩

theorem foldl_addUnique_mem (ids : List String) :
    ∀ (acc : List String) (y : String), y ∈ ids.foldl addUnique acc ↔ y ∈ acc ∨ y ∈ ids := by
  induction ids with
  | nil => intro acc y; simp
  | cons i is ih =>
    intro acc y
    rw [List.foldl_cons, ih]
    rw [mem_addUnique]
    constructor
    · rintro ((h | rfl) | h)
      · exact Or.inl h
      · exact Or.inr (List.mem_cons_self _ _)
      · exact Or.inr (List.mem_cons_of_mem _ h)
    · rintro (h | h)
      · exact Or.inl (Or.inl h)
      · rcases List.mem_cons.mp h with rfl | h2
        · exact Or.inl (Or.inr rfl)
        · exact Or.inr h2

theorem foldl_addUnique_nodup (ids : List String) :
    ∀ acc : List String, acc.Nodup → (ids.foldl addUnique acc).Nodup := by
  induction ids with
  | nil => intro acc h; simpa using h
  | cons i is ih => intro acc h; exact ih _ (nodup_addUnique h i)

theorem lookupList_some_mem {α β : Type} [DecidableEq α] {m : List (α × β)} {a : α} {b : β}
    (h : lookupList m a = some b) : (a, b) ∈ m := by
  unfold lookupList at h
  cases hf : m.find? (fun p => p.1 = a) with
  | none => rw [hf] at h; cases h
  | some p =>
    rw [hf] at h
    have hp : p ∈ m := List.mem_of_find?_eq_some hf
    have hp1 : p.1 = a := by simpa using List.find?_some hf
    have hp2 : p.2 = b := by simpa using h
    have : p = (a, b) := Prod.ext hp1 hp2
    rwa [this] at hp

theorem lookupList_eq_some_of_mem {α β : Type} [DecidableEq α] {m : List (α × β)}
    (hnd : (m.map Prod.fst).Nodup) {a : α} {b : β} (hab : (a, b) ∈ m) :
    lookupList m a = some b := by
  induction m with
  | nil => cases hab
  | cons p rest ih =>
    rcases List.mem_cons.mp hab with rfl | h2
    · unfold lookupList
      rw [List.find?_cons_of_pos _ (by simp)]
      rfl
    · have hne : p.1 ≠ a := by
        intro he
        have : a ∈ rest.map Prod.fst := ⟨(a, b), h2, rfl⟩ |> fun h3 => List.mem_map.mpr h3
        rw [List.map_cons] at hnd
        rw [he] at hnd
        exact (List.nodup_cons.mp hnd).1 this
      unfold lookupList
      rw [List.find?_cons_of_neg _ (by simpa using hne)]
      exact ih (by rw [List.map_cons] at hnd; exact (List.nodup_cons.mp hnd).2) h2

theorem map_lookup_self {α β : Type} [DecidableEq α] (d : β) :
    ∀ m : List (α × β), (m.map Prod.fst).Nodup →
      (m.map Prod.fst).map (fun a => (a, (lookupList m a).getD d)) = m := by
  intro m
  induction m with
  | nil => intro _; rfl
  | cons p rest ih =>
    intro hnd
    rw [List.map_cons] at hnd
    obtain ⟨hp, hrest⟩ := List.nodup_cons.mp hnd
    rw [List.map_cons, List.map_cons]
    congr 1
    · have hlk : lookupList (p :: rest) p.1 = some p.2 := by
        unfold lookupList
        rw [List.find?_cons_of_pos _ (by simp)]
        rfl
      rw [hlk]
      rfl
    · have hsame : ∀ a ∈ rest.map Prod.fst,
          lookupList (p :: rest) a = lookupList rest a := by
        intro a ha
        have hne : p.1 ≠ a := fun he => hp (he ▸ ha)
        unfold lookupList
        rw [List.find?_cons_of_neg _ (by simpa using hne)]
      calc (rest.map Prod.fst).map (fun a => (a, (lookupList (p :: rest) a).getD d))
          = (rest.map Prod.fst).map (fun a => (a, (lookupList rest a).getD d)) := by
            apply List.map_congr_left
            intro a ha
            rw [hsame a ha]
        _ = rest := ih hrest

theorem foldl_addUnique_fst (m : List (String × List ℝ)) :
    ∀ acc : List String,
      m.foldl (fun acc p => addUnique acc p.1) acc = (m.map Prod.fst).foldl addUnique acc := by
  induction m with
  | nil => intro acc; rfl
  | cons p rest ih => intro acc; rw [List.foldl_cons, List.map_cons, List.foldl_cons, ih]

/-- A duplicate-free list is no longer than any list containing it. -/
theorem nodup_length_le_of_subset {l m : List String} (hnd : l.Nodup) (hsub : l ⊆ m) :
    l.length ≤ m.length := by
  calc l.length = l.toFinset.card := (List.toFinset_card_of_nodup hnd).symm
    _ ≤ m.toFinset.card := Finset.card_le_card (fun x hx => by
        rw [List.mem_toFinset] at hx ⊢
        exact hsub hx)
    _ = m.dedup.length := List.card_toFinset m
    _ ≤ m.length := (List.dedup_sublist m).length_le

theorem annBucketCandidates_sub {st : ANNIndex} {d : ℕ} (hwf : AnnWF st d) (qh : ℕ) :
    (∀ x ∈ annBucketCandidates st qh, x ∈ st.vectors.map Prod.fst) ∧
      (annBucketCandidates st qh).Nodup := by
  unfold annBucketCandidates
  generalize qh :: (List.range st.numHashes).map (fun i => qh ^^^ 2 ^ i) = keys
  have main : ∀ (ks : List ℕ) (acc : List String),
      (∀ x ∈ acc, x ∈ st.vectors.map Prod.fst) → acc.Nodup →
      (∀ x ∈ ks.foldl (fun acc h => ((lookupList st.buckets h).getD []).foldl addUnique acc) acc,
        x ∈ st.vectors.map Prod.fst) ∧
      (ks.foldl (fun acc h => ((lookupList st.buckets h).getD []).foldl addUnique acc) acc).Nodup := by
    intro ks
    induction ks with
    | nil => intro acc hsub hnd; exact ⟨hsub, hnd⟩
    | cons h hs ih =>
      intro acc hsub hnd
      rw [List.foldl_cons]
      apply ih
      · intro x hx
        rcases (foldl_addUnique_mem _ _ _).mp hx with h2 | h2
        · exact hsub x h2
        · cases hb : lookupList st.buckets h with
          | none => rw [hb] at h2; cases h2
          | some bucket =>
            rw [hb] at h2
            exact hwf.2.2.2 (h, bucket) (lookupList_some_mem hb) x h2
      · exact foldl_addUnique_nodup _ _ hnd
  exact main keys [] (by simp) List.nodup_nil

theorem collectSims_ok_filterMap (t : ℝ) (query : List ℝ) :
    ∀ m : List (String × List ℝ), (∀ p ∈ m, (p.2 : List ℝ).length = query.length) →
      collectSims t query m =
        .ok (m.filterMap (fun p => if t ≤ dotR query p.2 then some (p.1, dotR query p.2) else none)) := by
  intro m
  induction m with
  | nil => intro _; rfl
  | cons hd tl ih =>
    intro hlen
    obtain ⟨id, vec⟩ := hd
    have h1 : cosineSimilarity query vec = .ok (dotR query vec) := by
      unfold cosineSimilarity
      rw [if_neg (by simp [hlen (id, vec) (List.mem_cons_self _ _)])]
    show collectSims t query ((id, vec) :: tl) = _
    unfold collectSims
    rw [h1, ih (fun p hp => hlen p (List.mem_cons_of_mem _ hp)), List.filterMap_cons]
    by_cases hth : t ≤ dotR query vec
    · simp only [if_pos hth]
    · simp only [if_neg hth]

/-! ## Claim C10: ANN fallback coincides with brute force -/

/-- C10.  When a well-formed ANN index stores fewer than `k` vectors and
the query has the established dimension, the ANN search succeeds without
touching its state and returns exactly the same multiset of
(id, similarity) pairs as the brute-force search over the same stored
vectors: the bucket candidates (fewer than `k` of them) are widened to
all stored ids. -/
theorem C10_ann_fallback_equals_bruteforce (ann : ANNIndex) (bf : BruteForceIndex)
    (q : List ℝ) (k : ℕ) (t : ℝ) (d : ℕ)
    (hwf : AnnWF ann d) (hq : q.length = d) (hsame : bf.vectors = ann.vectors)
    (hk : ann.vectors.length < k) :
    ∃ res bres, ann.search q k t = .ok (ann, res) ∧ bf.search q k t = .ok bres ∧
      List.Perm res bres := by
  have hqlen : (normalizeVector q).length = d := by rw [length_normalizeVector, hq]
  have hinit : ann.initProjection (normalizeVector q).length = ann := by
    unfold ANNIndex.initProjection
    rw [if_pos (by rw [hwf.1]; exact fun h => Option.noConfusion h)]
  have hhash : ann.hashOf (normalizeVector q) =
      .ok (ann, ann.hashBits (normalizeVector q)) := by
    unfold ANNIndex.hashOf
    rw [hinit, if_neg (by rw [hwf.1, hqlen]; exact fun h => h rfl)]
  set qh := ann.hashBits (normalizeVector q) with hqh
  obtain ⟨hc0sub, hc0nd⟩ := annBucketCandidates_sub hwf qh
  have hc0len : (annBucketCandidates ann qh).length < k :=
    lt_of_le_of_lt
      (le_trans (nodup_length_le_of_subset hc0nd hc0sub) (by simp)) hk
  set cands := ann.vectors.foldl (fun acc p => addUnique acc p.1) (annBucketCandidates ann qh)
    with hcands
  have hcands_map : cands = (ann.vectors.map Prod.fst).foldl addUnique
      (annBucketCandidates ann qh) := by
    rw [hcands, foldl_addUnique_fst]
  have hcmem : ∀ y, y ∈ cands ↔ y ∈ ann.vectors.map Prod.fst := by
    intro y
    rw [hcands_map, foldl_addUnique_mem]
    constructor
    · rintro (h | h)
      · exact hc0sub y h
      · exact h
    · exact Or.inr
  have hcnd : cands.Nodup := by
    rw [hcands_map]; exact foldl_addUnique_nodup _ _ hc0nd
  have hperm : List.Perm cands (ann.vectors.map Prod.fst) :=
    (List.perm_ext_iff_of_nodup hcnd hwf.2.2.1).mpr hcmem
  have hmapped : List.Perm (cands.map (fun id => (id, (lookupList ann.vectors id).getD [])))
      ((ann.vectors.map Prod.fst).map (fun id => (id, (lookupList ann.vectors id).getD []))) :=
    hperm.map _
  have hself : (ann.vectors.map Prod.fst).map
      (fun id => (id, (lookupList ann.vectors id).getD [])) = ann.vectors :=
    map_lookup_self [] ann.vectors hwf.2.2.1
  have hmapped2 : List.Perm (cands.map (fun id => (id, (lookupList ann.vectors id).getD [])))
      ann.vectors := hmapped.trans (by rw [hself])
  have hlens : ∀ p ∈ cands.map (fun id => (id, (lookupList ann.vectors id).getD [])),
      (p.2 : List ℝ).length = (normalizeVector q).length := by
    rintro p hp
    obtain ⟨id, hid, rfl⟩ := List.mem_map.mp hp
    have hidk : id ∈ ann.vectors.map Prod.fst := (hcmem id).mp hid
    obtain ⟨⟨a, b⟩, hpp, heq⟩ := List.mem_map.mp hidk
    subst heq
    have hlk : lookupList ann.vectors a = some b :=
      lookupList_eq_some_of_mem hwf.2.2.1 hpp
    rw [hlk]
    simp only [Option.getD_some]
    rw [hwf.2.1 (a, b) hpp, hqlen]
  have hblens : ∀ p ∈ bf.vectors, (p.2 : List ℝ).length = (normalizeVector q).length := by
    intro p hp
    rw [hsame] at hp
    rw [hwf.2.1 p hp, hqlen]
  have hanncol := collectSims_ok_filterMap t (normalizeVector q) _ hlens
  have hbfcol := collectSims_ok_filterMap t (normalizeVector q) _ hblens
  refine ⟨(sortByDesc Prod.snd ((cands.map
      (fun id => (id, (lookupList ann.vectors id).getD []))).filterMap (fun p =>
        if t ≤ dotR (normalizeVector q) p.2 then some (p.1, dotR (normalizeVector q) p.2)
        else none))).take k,
    (sortByDesc Prod.snd (bf.vectors.filterMap (fun p =>
      if t ≤ dotR (normalizeVector q) p.2 then some (p.1, dotR (normalizeVector q) p.2)
      else none))).take k, ?_, ?_, ?_⟩
  · simp only [ANNIndex.search]
    split
    · rename_i msg heq
      rw [hhash] at heq
      exact Except.noConfusion heq
    · rename_i p heq
      rw [hhash] at heq
      have hp : p = (ann, qh) := (Except.ok.inj heq).symm
      subst hp
      dsimp only
      split
      · rename_i msg heq2
        rw [if_pos hc0len, ← hcands, hanncol] at heq2
        exact Except.noConfusion heq2
      · rename_i results heq2
        rw [if_pos hc0len, ← hcands, hanncol] at heq2
        have hres := Except.ok.inj heq2
        rw [← hres]
  · simp only [BruteForceIndex.search]
    rw [hbfcol]
    rfl
  · have hA : List.Perm
        ((cands.map (fun id => (id, (lookupList ann.vectors id).getD []))).filterMap (fun p =>
          if t ≤ dotR (normalizeVector q) p.2 then some (p.1, dotR (normalizeVector q) p.2)
          else none))
        (bf.vectors.filterMap (fun p =>
          if t ≤ dotR (normalizeVector q) p.2 then some (p.1, dotR (normalizeVector q) p.2)
          else none)) := by
      rw [hsame]
      exact hmapped2.filterMap _
    have hlenA : (sortByDesc Prod.snd ((cands.map
        (fun id => (id, (lookupList ann.vectors id).getD []))).filterMap (fun p =>
          if t ≤ dotR (normalizeVector q) p.2 then some (p.1, dotR (normalizeVector q) p.2)
          else none))).length ≤ k := by
      rw [length_sortByDesc]
      refine le_of_lt (lt_of_le_of_lt (List.length_filterMap_le _ _) ?_)
      rw [List.length_map]
      calc cands.length = (ann.vectors.map Prod.fst).length := hperm.length_eq
        _ = ann.vectors.length := List.length_map _ _
        _ < k := hk
    have hlenB : (sortByDesc Prod.snd (bf.vectors.filterMap (fun p =>
        if t ≤ dotR (normalizeVector q) p.2 then some (p.1, dotR (normalizeVector q) p.2)
        else none))).length ≤ k := by
      rw [length_sortByDesc]
      refine le_of_lt (lt_of_le_of_lt (List.length_filterMap_le _ _) ?_)
      calc bf.vectors.length = ann.vectors.length := by rw [hsame]
        _ < k := hk
    rw [List.take_of_length_le hlenA, List.take_of_length_le hlenB]
    exact ((perm_sortByDesc _ _).trans hA).trans (perm_sortByDesc _ _).symm

theorem C10_witness :
    AnnWF annEmpty 1 ∧ annEmpty.vectors.length < 1 ∧
      ∃ res bres, annEmpty.search [0] 1 (1 / 2) = .ok (annEmpty, res) ∧
        bfEmpty.search [0] 1 (1 / 2) = .ok bres ∧ List.Perm res bres := by
  have hwf : AnnWF annEmpty 1 :=
    ⟨rfl, by simp [annEmpty], by simp [annEmpty], by simp [annEmpty]⟩
  exact ⟨hwf, by simp [annEmpty],
    C10_ann_fallback_equals_bruteforce annEmpty bfEmpty [0] 1 (1 / 2) 1 hwf rfl rfl
      (by simp [annEmpty])⟩

/-! ## Edge id and putEdge lemmas (for claim C6) -/

theorem colon_split_inj :
    ∀ xs xs' ys ys' : List Char, ':' ∉ xs → ':' ∉ xs' →
      xs ++ ':' :: ys = xs' ++ ':' :: ys' → xs = xs' ∧ ys = ys' := by
  intro xs
  induction xs with
  | nil =>
    intro xs' ys ys' _ hx2 h
    cases xs' with
    | nil => simpa using h
    | cons c cs =>
      simp only [List.nil_append, List.cons_append, List.cons.injEq] at h
      rw [← h.1] at hx2
      exact absurd (List.mem_cons_self ':' cs) hx2
  | cons c cs ih =>
    intro xs' ys ys' hx1 hx2 h
    cases xs' with
    | nil =>
      simp only [List.cons_append, List.nil_append, List.cons.injEq] at h
      rw [h.1] at hx1
      exact absurd (List.mem_cons_self ':' cs) hx1
    | cons c2 cs2 =>
      simp only [List.cons_append, List.cons.injEq] at h
      obtain ⟨rfl, h2⟩ := h
      have h3 := ih cs2 ys ys' (fun hc => hx1 (List.mem_cons_of_mem _ hc))
        (fun hc => hx2 (List.mem_cons_of_mem _ hc)) h2
      exact ⟨by rw [h3.1], h3.2⟩

theorem mkEdgeId_inj {a b c d : String} (ha : ':' ∉ a.toList) (hc : ':' ∉ c.toList)
    (h : mkEdgeId a b = mkEdgeId c d) : a = c ∧ b = d := by
  unfold mkEdgeId at h
  have hdata : a.data ++ ':' :: b.data = c.data ++ ':' :: d.data := by
    have h2 := congrArg String.data h
    rw [String.data_append, String.data_append, String.data_append, String.data_append] at h2
    rw [show (":" : String).data = [':'] from rfl] at h2
    simpa [List.append_assoc] using h2
  obtain ⟨h1, h2⟩ := colon_split_inj a.data c.data b.data d.data ha hc hdata
  exact ⟨String.ext h1, String.ext h2⟩

theorem mem_putEdge_self (es : List GraphEdge) (e : GraphEdge) : e ∈ putEdge es e := by
  unfold putEdge
  split
  · rename_i hin
    obtain ⟨x, hx, hxid⟩ := List.mem_map.mp hin
    refine List.mem_map.mpr ⟨x, hx, ?_⟩
    rw [if_pos hxid]
  · exact List.mem_append.mpr (Or.inr (List.mem_cons_self _ _))

theorem mem_putEdge_of_ne {es : List GraphEdge} {e : GraphEdge} (e2 : GraphEdge)
    (he : e ∈ es) (hne : e.id ≠ e2.id) : e ∈ putEdge es e2 := by
  unfold putEdge
  split
  · refine List.mem_map.mpr ⟨e, he, ?_⟩
    rw [if_neg hne]
  · exact List.mem_append.mpr (Or.inl he)

theorem putEdge_cover {es : List GraphEdge} {e e2 : GraphEdge}
    (h : e ∈ putEdge es e2) : e ∈ es ∨ e = e2 := by
  unfold putEdge at h
  split at h
  · obtain ⟨x, hx, hxe⟩ := List.mem_map.mp h
    by_cases hid : x.id = e2.id
    · rw [if_pos hid] at hxe
      exact Or.inr hxe.symm
    · rw [if_neg hid] at hxe
      exact Or.inl (hxe ▸ hx)
  · rcases List.mem_append.mp h with h2 | h2
    · exact Or.inl h2
    · rcases List.mem_cons.mp h2 with rfl | h3
      · exact Or.inr rfl
      · cases h3

/-! ## Claim C6: graph builder edge creation -/

theorem foldEdges_keep (n : String) (now : ℤ) :
    ∀ (l : List (String × ℝ)) (τ : CortexStorage) (e : GraphEdge), e ∈ τ.edges →
      (∀ q ∈ l, e.id ≠ mkEdgeId n q.1 ∧ e.id ≠ mkEdgeId q.1 n) →
      e ∈ (l.foldl (fun acc p =>
        addGraphEdge (addGraphEdge acc n p.1 p.2 now) p.1 n p.2 now) τ).edges := by
  intro l
  induction l with
  | nil => intro τ e he _; exact he
  | cons h tl ih =>
    intro τ e he hne
    rw [List.foldl_cons]
    apply ih
    · show e ∈ putEdge (putEdge τ.edges _) _
      apply mem_putEdge_of_ne
      · apply mem_putEdge_of_ne
        · exact he
        · exact (hne h (List.mem_cons_self _ _)).1
      · exact (hne h (List.mem_cons_self _ _)).2
    · intro q hq
      exact hne q (List.mem_cons_of_mem _ hq)

theorem foldEdges_cover (n : String) (now : ℤ) :
    ∀ (l : List (String × ℝ)) (τ : CortexStorage) (e : GraphEdge),
      e ∈ (l.foldl (fun acc p =>
        addGraphEdge (addGraphEdge acc n p.1 p.2 now) p.1 n p.2 now) τ).edges →
      e ∈ τ.edges ∨ ∃ q ∈ l,
        e = (⟨mkEdgeId n q.1, n, q.1, q.2, now⟩ : GraphEdge) ∨
        e = (⟨mkEdgeId q.1 n, q.1, n, q.2, now⟩ : GraphEdge) := by
  intro l
  induction l with
  | nil => intro τ e he; exact Or.inl he
  | cons h tl ih =>
    intro τ e he
    rw [List.foldl_cons] at he
    rcases ih _ e he with h2 | ⟨q, hq, h3⟩
    · have h3 : e ∈ putEdge (putEdge τ.edges _) _ := h2
      rcases putEdge_cover h3 with h4 | h4
      · rcases putEdge_cover h4 with h5 | h5
        · exact Or.inl h5
        · exact Or.inr ⟨h, List.mem_cons_self _ _, Or.inl h5⟩
      · exact Or.inr ⟨h, List.mem_cons_self _ _, Or.inr h4⟩
    · exact Or.inr ⟨q, List.mem_cons_of_mem _ hq, h3⟩

theorem foldEdges_present (n : String) (now : ℤ) (hcfn : ':' ∉ n.toList) :
    ∀ (l : List (String × ℝ)) (τ : CortexStorage),
      (∀ q ∈ l, ':' ∉ (q.1 : String).toList ∧ (q.1 : String) ≠ n) → (l.map Prod.fst).Nodup →
      ∀ q ∈ l,
        (⟨mkEdgeId n q.1, n, q.1, q.2, now⟩ : GraphEdge) ∈ (l.foldl (fun acc p =>
          addGraphEdge (addGraphEdge acc n p.1 p.2 now) p.1 n p.2 now) τ).edges ∧
        (⟨mkEdgeId q.1 n, q.1, n, q.2, now⟩ : GraphEdge) ∈ (l.foldl (fun acc p =>
          addGraphEdge (addGraphEdge acc n p.1 p.2 now) p.1 n p.2 now) τ).edges := by
  intro l
  induction l with
  | nil => intro τ _ _ q hq; cases hq
  | cons h tl ih =>
    intro τ hcf hnd q hq
    have hhcf := hcf h (List.mem_cons_self _ _)
    have hnd2 : (h.1 : String) ∉ tl.map Prod.fst ∧ (tl.map Prod.fst).Nodup := by
      rw [List.map_cons] at hnd
      exact List.nodup_cons.mp hnd
    rcases List.mem_cons.mp hq with rfl | hq2
    · rw [List.foldl_cons]
      have hne_ids : ∀ q2 ∈ tl,
          (mkEdgeId n q.1 ≠ mkEdgeId n q2.1 ∧ mkEdgeId n q.1 ≠ mkEdgeId q2.1 n) ∧
          (mkEdgeId q.1 n ≠ mkEdgeId n q2.1 ∧ mkEdgeId q.1 n ≠ mkEdgeId q2.1 n) := by
        intro q2 hq2
        have hq2cf := hcf q2 (List.mem_cons_of_mem _ hq2)
        have hq2ne : q.1 ≠ q2.1 := by
          intro he
          exact hnd2.1 (List.mem_map.mpr ⟨q2, hq2, he.symm⟩)
        refine ⟨⟨?_, ?_⟩, ⟨?_, ?_⟩⟩
        · intro he
          exact hq2ne (mkEdgeId_inj hcfn hcfn he).2
        · intro he
          exact hq2cf.2 (mkEdgeId_inj hcfn hq2cf.1 he).1.symm
        · intro he
          exact hhcf.2 (mkEdgeId_inj hhcf.1 hcfn he).1
        · intro he
          exact hq2ne (mkEdgeId_inj hhcf.1 hq2cf.1 he).1
      constructor
      · apply foldEdges_keep n now tl _ _ ?hin ?hne
        case hin =>
          show _ ∈ putEdge (putEdge τ.edges _) _
          apply mem_putEdge_of_ne
          · exact mem_putEdge_self _ _
          · show mkEdgeId n q.1 ≠ mkEdgeId q.1 n
            intro he
            exact hhcf.2 (mkEdgeId_inj hcfn hhcf.1 he).1.symm
        case hne =>
          intro q2 hq2
          exact (hne_ids q2 hq2).1
      · apply foldEdges_keep n now tl _ _ ?hin2 ?hne2
        case hin2 =>
          exact mem_putEdge_self _ _
        case hne2 =>
          intro q2 hq2
          exact (hne_ids q2 hq2).2
    · rw [List.foldl_cons]
      exact ih _ (fun q2 hq2 => hcf q2 (List.mem_cons_of_mem _ hq2)) hnd2.2 q hq2

theorem collectSimilar_ok_filterMap (selfId : String) (vec : List ℝ) :
    ∀ m : List (String × List ℝ),
      (∀ p ∈ m, (p.1 : String) ≠ selfId → (p.2 : List ℝ).length = vec.length) →
      collectSimilar selfId vec m =
        .ok (m.filterMap (fun p =>
          if p.1 = selfId then none
          else if 3 / 5 ≤ dotR vec p.2 then some (p.1, dotR vec p.2) else none)) := by
  intro m
  induction m with
  | nil => intro _; rfl
  | cons hd tl ih =>
    intro hlen
    obtain ⟨nid, evec⟩ := hd
    show collectSimilar selfId vec ((nid, evec) :: tl) = _
    unfold collectSimilar
    rw [List.filterMap_cons]
    by_cases hself : nid = selfId
    · rw [if_pos hself]
      simp only [if_pos hself]
      exact ih (fun p hp => hlen p (List.mem_cons_of_mem _ hp))
    · rw [if_neg hself]
      have h1 : cosineSimilarity vec evec = .ok (dotR vec evec) := by
        unfold cosineSimilarity
        rw [if_neg (by simp [hlen (nid, evec) (List.mem_cons_self _ _) hself])]
      rw [h1, ih (fun p hp => hlen p (List.mem_cons_of_mem _ hp))]
      simp only [if_neg hself]
      by_cases hth : (3 : ℝ) / 5 ≤ dotR vec evec
      · simp only [if_pos hth]
      · simp only [if_neg hth]

/-- Keys of a key-preserving `filterMap` form a sublist of the original
keys. -/
theorem filterMap_keys_sublist {α : Type} (g : String × α → Option (String × ℝ))
    (hg : ∀ p q, g p = some q → q.1 = p.1) :
    ∀ m : List (String × α), ((m.filterMap g).map Prod.fst).Sublist (m.map Prod.fst) := by
  intro m
  induction m with
  | nil => simp
  | cons p rest ih =>
    rw [List.filterMap_cons]
    cases hgp : g p with
    | none =>
      rw [List.map_cons]
      exact ih.trans (List.sublist_cons_self _ _)
    | some q =>
      rw [List.map_cons, List.map_cons]
      rw [hg p q hgp]
      exact ih.cons₂ _

/-- C6.  `addNode(record, vector)` (with distinct, colon-free stored ids
of matching dimension) succeeds and creates edges exactly for the top
at-most-10 stored records with similarity at least `0.6`: every selected
record is a qualifying candidate, at most 10 are selected, anything
qualifying but unselected scores no higher than anything selected, fewer
than 10 selections means every qualifying candidate was selected, and
for each selected record the store gains the symmetric edge pair
`record → other` / `other → record` with equal strength, all other edges
untouched. -/
theorem C6_addNode_edges (σ : CortexStorage) (node : MemoryNode) (vec : List ℝ) (now : ℤ)
    (hndk : (σ.embeddings.map Prod.fst).Nodup)
    (hlen : ∀ p ∈ σ.embeddings, (p.1 : String) ≠ node.id → (p.2 : List ℝ).length = vec.length)
    (hcfn : ':' ∉ node.id.toList)
    (hcfe : ∀ p ∈ σ.embeddings, ':' ∉ (p.1 : String).toList) :
    ∃ top, topSimilar node.id vec σ.embeddings = .ok top ∧
      top.length ≤ 10 ∧
      (∀ q ∈ top, 3 / 5 ≤ q.2 ∧ (q.1 : String) ≠ node.id ∧
        ∃ ev, ((q.1 : String), ev) ∈ σ.embeddings ∧ q.2 = dotR vec ev) ∧
      (∀ p ∈ σ.embeddings, (p.1 : String) ≠ node.id → 3 / 5 ≤ dotR vec p.2 →
        (p.1 : String) ∉ top.map Prod.fst → ∀ q ∈ top, dotR vec p.2 ≤ q.2) ∧
      (∀ p ∈ σ.embeddings, (p.1 : String) ≠ node.id → 3 / 5 ≤ dotR vec p.2 →
        top.length < 10 → (p.1 : String) ∈ top.map Prod.fst) ∧
      ∃ σ2, graphAddNode σ node vec now = .ok σ2 ∧
        (∀ q ∈ top,
          (⟨mkEdgeId node.id q.1, node.id, q.1, q.2, now⟩ : GraphEdge) ∈ σ2.edges ∧
          (⟨mkEdgeId q.1 node.id, q.1, node.id, q.2, now⟩ : GraphEdge) ∈ σ2.edges) ∧
        (∀ e ∈ σ2.edges, e ∈ σ.edges ∨ ∃ q ∈ top,
          e = (⟨mkEdgeId node.id q.1, node.id, q.1, q.2, now⟩ : GraphEdge) ∨
          e = (⟨mkEdgeId q.1 node.id, q.1, node.id, q.2, now⟩ : GraphEdge)) := by
  have hcol := collectSimilar_ok_filterMap node.id vec σ.embeddings hlen
  set g : String × List ℝ → Option (String × ℝ) := fun p =>
    if p.1 = node.id then none
    else if 3 / 5 ≤ dotR vec p.2 then some (p.1, dotR vec p.2) else none with hg
  set sims := σ.embeddings.filterMap g with hsims
  have hgkey : ∀ p q, g p = some q → q.1 = p.1 := by
    intro p q hpq
    rw [hg] at hpq
    dsimp only at hpq
    by_cases h1 : p.1 = node.id
    · rw [if_pos h1] at hpq; cases hpq
    · rw [if_neg h1] at hpq
      by_cases h2 : (3 : ℝ) / 5 ≤ dotR vec p.2
      · rw [if_pos h2] at hpq
        cases hpq
        rfl
      · rw [if_neg h2] at hpq; cases hpq
  have hmem_sims : ∀ q ∈ sims, 3 / 5 ≤ q.2 ∧ (q.1 : String) ≠ node.id ∧
      ∃ ev, ((q.1 : String), ev) ∈ σ.embeddings ∧ q.2 = dotR vec ev := by
    intro q hq
    obtain ⟨p, hp, hgp⟩ := List.mem_filterMap.mp hq
    rw [hg] at hgp
    dsimp only at hgp
    by_cases h1 : p.1 = node.id
    · rw [if_pos h1] at hgp; cases hgp
    · rw [if_neg h1] at hgp
      by_cases h2 : (3 : ℝ) / 5 ≤ dotR vec p.2
      · rw [if_pos h2] at hgp
        cases hgp
        exact ⟨h2, h1, p.2, by simpa using hp, rfl⟩
      · rw [if_neg h2] at hgp; cases hgp
  have hqual_sims : ∀ p ∈ σ.embeddings, (p.1 : String) ≠ node.id → 3 / 5 ≤ dotR vec p.2 →
      ((p.1 : String), dotR vec p.2) ∈ sims := by
    intro p hp h1 h2
    refine List.mem_filterMap.mpr ⟨p, hp, ?_⟩
    rw [hg]
    dsimp only
    rw [if_neg h1, if_pos h2]
  have htop_def : topSimilar node.id vec σ.embeddings = .ok ((sortByDesc Prod.snd sims).take 10) := by
    unfold topSimilar
    rw [hcol]
    rfl
  set top := (sortByDesc Prod.snd sims).take 10 with htop
  have htop_sub : ∀ q ∈ top, q ∈ sims := fun q hq =>
    mem_sortByDesc.mp (List.mem_of_mem_take hq)
  have htop_keys_nodup : (top.map Prod.fst).Nodup := by
    have h1 : (sims.map Prod.fst).Sublist (σ.embeddings.map Prod.fst) := by
      rw [hsims]
      exact filterMap_keys_sublist g hgkey σ.embeddings
    have h2 : (sims.map Prod.fst).Nodup := h1.nodup hndk
    have h3 : ((sortByDesc Prod.snd sims).map Prod.fst).Nodup :=
      ((perm_sortByDesc Prod.snd sims).map Prod.fst).nodup_iff.mpr h2
    exact h3.sublist ((List.take_sublist 10 _).map Prod.fst)
  refine ⟨top, htop_def, by simp [htop, List.length_take], fun q hq => hmem_sims q (htop_sub q hq),
    ?_, ?_, ?_⟩
  · intro p hp h1 h2 hnotin q hq
    have hpair : ((p.1 : String), dotR vec p.2) ∈ sortByDesc Prod.snd sims :=
      mem_sortByDesc.mpr (hqual_sims p hp h1 h2)
    have hpairnot : ((p.1 : String), dotR vec p.2) ∉ top := by
      intro hmem
      exact hnotin (List.mem_map.mpr ⟨_, hmem, rfl⟩)
    have := descSorted_take_out (sorted_sortByDesc Prod.snd sims) hpair hpairnot q hq
    simpa using this
  · intro p hp h1 h2 htoplen
    have hlen_lt : (sortByDesc Prod.snd sims).length < 10 := by
      by_contra hge
      push_neg at hge
      rw [htop] at htoplen
      rw [List.length_take] at htoplen
      omega
    have htake_all : top = sortByDesc Prod.snd sims := by
      rw [htop]
      exact List.take_of_length_le (le_of_lt hlen_lt)
    have hpair : ((p.1 : String), dotR vec p.2) ∈ sortByDesc Prod.snd sims :=
      mem_sortByDesc.mpr (hqual_sims p hp h1 h2)
    rw [htake_all]
    exact List.mem_map.mpr ⟨_, hpair, rfl⟩
  · refine ⟨top.foldl (fun acc p =>
      addGraphEdge (addGraphEdge acc node.id p.1 p.2 now) p.1 node.id p.2 now) σ, ?_, ?_, ?_⟩
    · unfold graphAddNode
      rw [htop_def]
      rfl
    · intro q hq
      apply foldEdges_present node.id now hcfn top σ ?_ htop_keys_nodup q hq
      intro q2 hq2
      obtain ⟨_, hne, ev, hev, _⟩ := hmem_sims q2 (htop_sub q2 hq2)
      exact ⟨hcfe (q2.1, ev) hev, hne⟩
    · intro e he
      exact foldEdges_cover node.id now top σ e he

theorem C6_witness :
    ∃ top, topSimilar nodeX.id [1] storeGraph.embeddings = .ok top ∧
      top.length ≤ 10 ∧ ∃ σ2, graphAddNode storeGraph nodeX [1] 0 = .ok σ2 := by
  have hmem : ∀ p ∈ storeGraph.embeddings,
      p = ("A", ([9 / 10] : List ℝ)) ∨ p = ("B", ([1 / 2] : List ℝ)) := by
    intro p hp
    have : p ∈ [("A", ([9 / 10] : List ℝ)), ("B", ([1 / 2] : List ℝ))] := hp
    simpa using this
  have hndk : (storeGraph.embeddings.map Prod.fst).Nodup := by
    show (["A", "B"] : List String).Nodup
    decide
  have hlen : ∀ p ∈ storeGraph.embeddings,
      (p.1 : String) ≠ nodeX.id → (p.2 : List ℝ).length = ([1] : List ℝ).length := by
    intro p hp _
    rcases hmem p hp with rfl | rfl <;> rfl
  have hcfn : ':' ∉ nodeX.id.toList := by
    show ':' ∉ ("X" : String).toList
    decide
  have hcfe : ∀ p ∈ storeGraph.embeddings, ':' ∉ (p.1 : String).toList := by
    intro p hp
    rcases hmem p hp with rfl | rfl <;> decide
  obtain ⟨top, h1, h2, _, _, _, σ2, h6, _⟩ :=
    C6_addNode_edges storeGraph nodeX [1] 0 hndk hlen hcfn hcfe
  exact ⟨top, h1, h2, σ2, h6⟩

/-! ## Pointwise list arithmetic lemmas (for the recall scenario) -/

theorem dotR_replicate_zero : ∀ (n : ℕ) (w : List ℝ), dotR (List.replicate n 0) w = 0 := by
  intro n
  induction n with
  | zero => intro w; rfl
  | succ m ih =>
    intro w
    cases w with
    | nil => rfl
    | cons a t =>
      show dotR ((0 : ℝ) :: List.replicate m 0) (a :: t) = 0
      unfold dotR
      rw [List.zipWith_cons_cons, List.sum_cons]
      have h0 := ih t
      unfold dotR at h0
      rw [h0]
      ring

theorem dotR_set_replicate (x : ℝ) : ∀ (n i : ℕ) (w : List ℝ), i < n → w.length = n →
    dotR ((List.replicate n (0 : ℝ)).set i x) w = x * w.getD i 0 := by
  intro n
  induction n with
  | zero => intro i w h _; omega
  | succ m ih =>
    intro i w h hw
    cases w with
    | nil => simp at hw
    | cons a t =>
      cases i with
      | zero =>
        rw [List.replicate_succ, List.set_cons_zero]
        unfold dotR
        rw [List.zipWith_cons_cons, List.sum_cons]
        have h0 := dotR_replicate_zero m t
        unfold dotR at h0
        rw [h0, List.getD_cons_zero]
        ring
      | succ j =>
        rw [List.replicate_succ, List.set_cons_succ]
        unfold dotR
        rw [List.zipWith_cons_cons, List.sum_cons]
        have h1 := ih j t (by omega) (by simpa using hw)
        unfold dotR at h1
        rw [h1, List.getD_cons_succ]
        ring

theorem getD_set_self : ∀ (l : List ℝ) (i : ℕ) (a : ℝ), i < l.length →
    (l.set i a).getD i 0 = a := by
  intro l
  induction l with
  | nil => intro i a h; simp at h
  | cons b t ih =>
    intro i a h
    cases i with
    | zero => rfl
    | succ j =>
      rw [List.set_cons_succ, List.getD_cons_succ]
      exact ih j a (by simpa using h)

theorem getD_set_ne : ∀ (l : List ℝ) (i j : ℕ) (a : ℝ), i ≠ j →
    (l.set i a).getD j 0 = l.getD j 0 := by
  intro l
  induction l with
  | nil => intro i j a _; rfl
  | cons b t ih =>
    intro i j a hne
    cases i with
    | zero =>
      cases j with
      | zero => exact absurd rfl hne
      | succ j2 => rw [List.set_cons_zero, List.getD_cons_succ, List.getD_cons_succ]
    | succ i2 =>
      cases j with
      | zero => rw [List.set_cons_succ, List.getD_cons_zero, List.getD_cons_zero]
      | succ j2 =>
        rw [List.set_cons_succ, List.getD_cons_succ, List.getD_cons_succ]
        exact ih i2 j2 a (fun h => hne (by rw [h]))

theorem sumSq_set : ∀ (l : List ℝ) (j : ℕ) (y : ℝ), j < l.length →
    sumSq (l.set j y) = sumSq l - l.getD j 0 * l.getD j 0 + y * y := by
  intro l
  induction l with
  | nil => intro j y h; simp at h
  | cons b t ih =>
    intro j y h
    cases j with
    | zero =>
      rw [List.set_cons_zero, List.getD_cons_zero]
      unfold sumSq
      rw [List.map_cons, List.sum_cons, List.map_cons, List.sum_cons]
      ring
    | succ j2 =>
      rw [List.set_cons_succ, List.getD_cons_succ]
      unfold sumSq
      rw [List.map_cons, List.sum_cons, List.map_cons, List.sum_cons]
      have h1 := ih j2 y (by simpa using h)
      unfold sumSq at h1
      rw [h1]
      ring

/-! ## Claim C9: recall augmentation -/

/-- C9 (amended).  With fewer than 3 vector matches the recall search
augments — the result is the vector matches plus keyword matches not
already present by id, each at the fixed synthetic similarity `0.2`,
re-sorted descending and truncated to `limit`; vector matches keep their
similarity but can be pushed out by the truncation, and the synthetic
`0.2` ranks above genuine vector matches whose similarity lies below
`0.2` (which the default threshold `0.15` admits). -/
theorem C9_recall_augment_amended (σ : CortexStorage) (query : String) (limit : ℕ)
    (threshold : ℝ) :
    (3 ≤ (recallVectorMatches σ query limit threshold).length →
      recallSearch σ query limit threshold = recallVectorMatches σ query limit threshold) ∧
      ((recallVectorMatches σ query limit threshold).length < 3 →
        (recallSearch σ query limit threshold).length ≤ limit ∧
        DescSorted Prod.snd (recallSearch σ query limit threshold) ∧
        (∀ e ∈ recallSearch σ query limit threshold,
          e ∈ recallVectorMatches σ query limit threshold ∨
            (e.2 = 1 / 5 ∧ e.1 ∈ (searchMemoryNodes σ query limit).map MemoryNode.id ∧
              e.1 ∉ (recallVectorMatches σ query limit threshold).map Prod.fst)) ∧
        (∀ e ∈ recallVectorMatches σ query limit threshold,
          e ∈ recallSearch σ query limit threshold ∨
            ((recallSearch σ query limit threshold).length = limit ∧
              ∀ r ∈ recallSearch σ query limit threshold, e.2 ≤ r.2))) := by
  constructor
  · intro h3
    simp only [recallSearch]
    rw [if_neg (by omega)]
  · intro h3
    have hres : recallSearch σ query limit threshold =
        (sortByDesc Prod.snd (recallVectorMatches σ query limit threshold ++
          ((searchMemoryNodes σ query limit).filter
            (fun n => n.id ∉ (recallVectorMatches σ query limit threshold).map Prod.fst)).map
            (fun n => (n.id, (1 / 5 : ℝ))))).take limit := by
      simp only [recallSearch]
      rw [if_pos h3]
    refine ⟨?_, ?_, ?_, ?_⟩
    · rw [hres]; simp [List.length_take]
    · rw [hres]; exact descSorted_take (sorted_sortByDesc Prod.snd _) limit
    · intro e he
      rw [hres] at he
      have he2 := mem_sortByDesc.mp (List.mem_of_mem_take he)
      rcases List.mem_append.mp he2 with h4 | h4
      · exact Or.inl h4
      · obtain ⟨n, hn, rfl⟩ := List.mem_map.mp h4
        obtain ⟨hn1, hn2⟩ := List.mem_filter.mp hn
        refine Or.inr ⟨rfl, List.mem_map.mpr ⟨n, hn1, rfl⟩, ?_⟩
        simpa using hn2
    · intro e he
      by_cases hmem : e ∈ recallSearch σ query limit threshold
      · exact Or.inl hmem
      · have hein : e ∈ sortByDesc Prod.snd (recallVectorMatches σ query limit threshold ++
            ((searchMemoryNodes σ query limit).filter
              (fun n => n.id ∉ (recallVectorMatches σ query limit threshold).map Prod.fst)).map
              (fun n => (n.id, (1 / 5 : ℝ)))) :=
          mem_sortByDesc.mpr (List.mem_append.mpr (Or.inl he))
        rw [hres] at hmem
        refine Or.inr ⟨?_, ?_⟩
        · rw [hres, List.length_take]
          rcases Nat.lt_or_ge limit (sortByDesc Prod.snd
              (recallVectorMatches σ query limit threshold ++
              ((searchMemoryNodes σ query limit).filter
                (fun n => n.id ∉ (recallVectorMatches σ query limit threshold).map Prod.fst)).map
                (fun n => (n.id, (1 / 5 : ℝ))))).length with hlt | hge
          · omega
          · rw [List.take_of_length_le hge] at hmem
            exact absurd hein hmem
        · intro r hr
          rw [hres] at hr
          exact descSorted_take_out (sorted_sortByDesc Prod.snd _) hein hmem r hr

theorem C9_witness :
    (recallVectorMatches ⟨[], [], []⟩ "" 5 (1 / 2)).length < 3 ∧
      (recallSearch ⟨[], [], []⟩ "" 5 (1 / 2)).length ≤ 5 ∧
      DescSorted Prod.snd (recallSearch ⟨[], [], []⟩ "" 5 (1 / 2)) := by
  have h : (recallVectorMatches ⟨[], [], []⟩ "" 5 (1 / 2)).length < 3 := by
    rw [show recallVectorMatches ⟨[], [], []⟩ "" 5 (1 / 2) = [] from rfl]
    norm_num
  obtain ⟨h1, h2, _⟩ := (C9_recall_augment_amended ⟨[], [], []⟩ "" 5 (1 / 2)).2 h
  exact ⟨h, h1, h2⟩

theorem rawEmbedding_ab :
    rawEmbedding "a-b" "a-b" [] = (List.replicate 384 (0 : ℝ)).set 246 (1 / 2) := by
  have h : rawEmbedding "a-b" "a-b" [] =
      (List.replicate 384 (0 : ℝ)).set 246 ((List.replicate 384 (0 : ℝ)).getD 246 0 + 1 / 2) :=
    rfl
  rw [h, getD_replicate _ _ 384 246 (by norm_num), zero_add]

theorem generateEmbedding_ab :
    generateEmbedding "a-b" "a-b" [] = (List.replicate 384 (0 : ℝ)).set 246 1 := by
  simp only [generateEmbedding]
  rw [rawEmbedding_ab, sumSq_set_replicate (1 / 2) 384 246 (by norm_num)]
  rw [show ((1 : ℝ) / 2 * (1 / 2)) = (1 / 2) ^ 2 by ring,
    Real.sqrt_sq (by norm_num : (0 : ℝ) ≤ 1 / 2)]
  rw [if_pos (by norm_num : (0 : ℝ) < 1 / 2)]
  rw [List.map_set, List.map_replicate]
  norm_num

theorem storageCos_ab :
    storageCosineSimilarity ((List.replicate 384 (0 : ℝ)).set 246 1) recallVec = 20 / 101 := by
  have hlq : ((List.replicate 384 (0 : ℝ)).set 246 1).length = 384 := by
    rw [List.length_set, List.length_replicate]
  have hlv : (recallVec : List ℝ).length = 384 := by
    unfold recallVec
    rw [List.length_set, List.length_set, List.length_replicate]
  simp only [storageCosineSimilarity]
  rw [if_neg (by rw [hlq, hlv]; exact fun h => h rfl)]
  rw [dotR_set_replicate 1 384 246 recallVec (by norm_num) hlv]
  rw [show (recallVec : List ℝ).getD 246 0 = 20 from by
    unfold recallVec
    exact getD_set_self _ 246 20 (by rw [List.length_set, List.length_replicate]; norm_num)]
  rw [sumSq_set_replicate 1 384 246 (by norm_num)]
  rw [show sumSq recallVec = 101 ^ 2 from by
    unfold recallVec
    rw [sumSq_set _ 246 20 (by rw [List.length_set, List.length_replicate]; norm_num)]
    rw [getD_set_ne _ 0 246 99 (by norm_num)]
    rw [getD_replicate _ _ 384 246 (by norm_num)]
    rw [sumSq_set_replicate 99 384 0 (by norm_num)]
    norm_num]
  rw [if_neg (by norm_num)]
  rw [show ((1 : ℝ) * 1) = 1 by norm_num, Real.sqrt_one,
    Real.sqrt_sq (by norm_num : (0 : ℝ) ≤ 101)]
  norm_num

set_option maxRecDepth 40000 in
theorem recallVectorMatches_ab :
    recallVectorMatches storeRecall "a-b" 1 (3 / 20) = [("A", (20 : ℝ) / 101)] := by
  unfold recallVectorMatches
  rw [show recallQueryWords "a-b" = [] from rfl]
  rw [generateEmbedding_ab]
  unfold vectorSearchStorage
  rw [show storeRecall.embeddings = [("A", recallVec)] from rfl]
  simp only [List.filterMap_cons, List.filterMap_nil]
  rw [storageCos_ab]
  rw [if_pos ⟨by norm_num, by rfl⟩]
  simp only [sortByDesc, insertByDesc]
  rfl

theorem splitWs_ab : splitWs ['a', '-', 'b'] = [['a', '-', 'b']] := by
  have h1 : splitWsAux ['a', '-', 'b'] [] = splitWsAux ['-', 'b'] ['a'] := by
    rw [splitWsAux.eq_def]; rfl
  have h2 : splitWsAux ['-', 'b'] ['a'] = splitWsAux ['b'] ['-', 'a'] := by
    rw [splitWsAux.eq_def]; rfl
  have h3 : splitWsAux ['b'] ['-', 'a'] = splitWsAux [] ['b', '-', 'a'] := by
    rw [splitWsAux.eq_def]; rfl
  have h4 : splitWsAux ([] : List Char) ['b', '-', 'a'] = [['a', '-', 'b']] := by
    rw [splitWsAux.eq_def]; rfl
  rw [splitWs, h1, h2, h3, h4]

set_option maxRecDepth 40000 in
theorem searchMemoryNodes_recall :
    searchMemoryNodes storeRecall "a-b" 1 = [mkNode "B" "uB" "a-b" "" [] 0 "d" "s"] := by
  simp only [searchMemoryNodes]
  rw [show lowerStr ("a-b".toList) = ['a', '-', 'b'] from rfl, splitWs_ab]
  rfl

set_option maxRecDepth 40000 in
/-- C9 (counterexample).  On the query `"a-b"` against `storeRecall`
with `limit = 1` and the default threshold `0.15`, the vector search
returns the genuine match `("A", 20/101 ≈ 0.198)` — at or above the
threshold — yet the final result is only the keyword match
`("B", 0.2)`: the synthetic similarity `0.2` outranked the genuine
vector match and the truncation dropped record `A`, contradicting both
"0.2 is below any genuine vector match at or above the threshold" and
"every record already present by id is kept". -/
theorem C9_counterexample :
    recallVectorMatches storeRecall "a-b" 1 (3 / 20) = [("A", (20 : ℝ) / 101)] ∧
      (3 / 20 : ℝ) ≤ 20 / 101 ∧ (20 / 101 : ℝ) < 1 / 5 ∧
      recallSearch storeRecall "a-b" 1 (3 / 20) = [("B", (1 : ℝ) / 5)] := by
  refine ⟨recallVectorMatches_ab, by norm_num, by norm_num, ?_⟩
  simp only [recallSearch]
  rw [recallVectorMatches_ab]
  rw [if_pos (by norm_num)]
  rw [searchMemoryNodes_recall]
  rw [show ([mkNode "B" "uB" "a-b" "" [] 0 "d" "s"].filter
      (fun n => n.id ∉ ([("A", (20 : ℝ) / 101)].map Prod.fst))).map
      (fun n => (n.id, (1 / 5 : ℝ))) = [("B", (1 / 5 : ℝ))] from rfl]
  rw [show ([("A", (20 : ℝ) / 101)] ++ [("B", (1 / 5 : ℝ))]) =
    [("A", (20 : ℝ) / 101), ("B", (1 / 5 : ℝ))] from rfl]
  simp only [sortByDesc, insertByDesc]
  rw [if_pos (by norm_num : (20 : ℝ) / 101 < 1 / 5)]
  rfl

/-! ## C7: `findPath` BFS correctness

Branch equations of `bfsAux`. -/

theorem bfsAux_nil (g : List (String × List String)) (t : String) (maxD : ℕ)
    (visited : List String) : bfsAux g t maxD visited [] = [] := by
  rw [bfsAux.eq_def]

theorem bfsAux_found (g : List (String × List String)) (t : String) (maxD : ℕ)
    (visited : List String) (p : List String) (rest : List (String × List String)) :
    bfsAux g t maxD visited ((t, p) :: rest) = p := by
  rw [bfsAux.eq_def]
  simp

theorem bfsAux_depth (g : List (String × List String)) (t : String) (maxD : ℕ)
    (visited : List String) (n : String) (p : List String) (rest : List (String × List String))
    (h1 : ¬ n = t) (h2 : maxD ≤ p.length) :
    bfsAux g t maxD visited ((n, p) :: rest) = bfsAux g t maxD visited rest := by
  rw [bfsAux.eq_def]
  simp [h1, h2]

theorem bfsAux_visited (g : List (String × List String)) (t : String) (maxD : ℕ)
    (visited : List String) (n : String) (p : List String) (rest : List (String × List String))
    (h1 : ¬ n = t) (h2 : ¬ maxD ≤ p.length) (h3 : n ∈ visited) :
    bfsAux g t maxD visited ((n, p) :: rest) = bfsAux g t maxD visited rest := by
  rw [bfsAux.eq_def]
  simp [h1, h2, h3]

theorem bfsAux_expand (g : List (String × List String)) (t : String) (maxD : ℕ)
    (visited : List String) (n : String) (p : List String) (rest : List (String × List String))
    (h1 : ¬ n = t) (h2 : ¬ maxD ≤ p.length) (h3 : n ∉ visited) :
    bfsAux g t maxD visited ((n, p) :: rest) =
      bfsAux g t maxD (n :: visited)
        (rest ++ ((nbrs g n).filter (fun m => m ∉ n :: visited)).map (fun m => (m, p ++ [m]))) := by
  rw [bfsAux.eq_def]
  simp [h1, h2, h3]

/-! Walks and walk lists. -/

theorem walk_zero {f : String → List String} {a b : String} (h : Walk f a b 0) : a = b := by
  cases h; rfl

theorem walk_snoc {f : String → List String} {c : String} :
    ∀ {a b : String} {n : ℕ}, Walk f a b n → c ∈ f b → Walk f a c (n + 1) := by
  intro a b n h
  induction h with
  | refl x => intro hc; exact Walk.step hc (Walk.refl c)
  | step h1 _ ih => intro hc; exact Walk.step h1 (ih hc)

theorem walkList_of_walk {f : String → List String} :
    ∀ {a b : String} {n : ℕ}, Walk f a b n →
      ∃ p : List String, p.head? = some a ∧ p.getLast? = some b ∧
        List.Chain' (StepRel f) p ∧ p.length = n + 1 := by
  intro a b n h
  induction h with
  | refl x => exact ⟨[x], rfl, rfl, List.chain'_singleton x, rfl⟩
  | step h1 h2 ih =>
    rename_i x y z m
    obtain ⟨p, hh, hl, hc, hlen⟩ := ih
    refine ⟨x :: p, rfl, ?_, ?_, by simp [hlen]⟩
    · cases p with
      | nil => simp at hh
      | cons hd tl => rw [List.getLast?_cons_cons]; exact hl
    · refine List.chain'_cons'.mpr ⟨?_, hc⟩
      intro w hw
      rw [hh] at hw
      cases hw
      exact h1

theorem getD_last {p : List String} {z : String} (h : p.getLast? = some z) :
    p.getD (p.length - 1) "" = z := by
  rw [List.getD_eq_getElem?_getD, ← List.getLast?_eq_getElem?, h]
  rfl

theorem getD_head {f : String → List String} {s : String} {p : List String}
    (h : WalkListFrom f s p) : p.getD 0 "" = s := by
  rw [List.getD_eq_getElem?_getD, ← List.head?_eq_getElem?, h.1]
  rfl

theorem walkList_ne_nil {f : String → List String} {s : String} {p : List String}
    (h : WalkListFrom f s p) : p ≠ [] := by
  intro he
  rw [he] at h
  exact Option.noConfusion h.1

theorem chain_step {f : String → List String} {s : String} {p : List String}
    (h : WalkListFrom f s p) {i : ℕ} (hi : i + 1 < p.length) :
    p.getD (i + 1) "" ∈ f (p.getD i "") := by
  have hc := h.2
  rw [List.chain'_iff_get] at hc
  have hi2 : i < p.length - 1 := by omega
  have hstep := hc i hi2
  rw [List.getD_eq_getElem _ _ hi, List.getD_eq_getElem _ _ (by omega : i < p.length)]
  simpa [StepRel, List.get_eq_getElem] using hstep

theorem walk_upto {f : String → List String} {s : String} {p : List String}
    (h : WalkListFrom f s p) : ∀ i, i < p.length → Walk f s (p.getD i "") i := by
  intro i
  induction i with
  | zero =>
    intro _
    rw [getD_head h]
    exact Walk.refl s
  | succ i ih =>
    intro hi
    exact walk_snoc (ih (by omega)) (chain_step h hi)

theorem walk_to_last {f : String → List String} {s z : String} {p : List String}
    (h : WalkListFrom f s p) (hz : p.getLast? = some z) : Walk f s z (p.length - 1) := by
  have hne : p ≠ [] := walkList_ne_nil h
  have hlt : p.length - 1 < p.length := by
    cases p with
    | nil => exact absurd rfl hne
    | cons a l => simp
  have := walk_upto h (p.length - 1) hlt
  rwa [getD_last hz] at this

theorem entry_walk {f : String → List String} {s : String} {e : String × List String}
    (h : EntryGood f s e) : Walk f s e.1 (e.2.length - 1) :=
  walk_to_last ⟨h.1, h.2.2⟩ h.2.1

/-! The climb lemma: from a position of a walk that is already expanded,
the BFS state keeps a queue entry for some later position of the walk. -/

theorem climb {f : String → List String} {s t : String} {maxD : ℕ} {V : List String}
    {Q : List (String × List String)} {lev : String → ℕ}
    (hInv : Inv f s t maxD V Q lev)
    {q : List String} {z : String} (hq : WalkListFrom f s q) (hz : q.getLast? = some z)
    (hzV : z ∉ V) (hqlen : q.length ≤ maxD) (hcase : q.length < maxD ∨ z = t) :
    ∀ k i, q.length - i ≤ k → i < q.length → q.getD i "" ∈ V → lev (q.getD i "") ≤ i →
      ∃ i2, i ≤ i2 ∧ i2 + 1 < q.length ∧
        ∃ pe, (q.getD (i2 + 1) "", pe) ∈ Q ∧ pe.length ≤ i2 + 2 := by
  intro k
  induction k with
  | zero => intro i hk hi _ _; omega
  | succ k ih =>
    intro i hk hi hiV hlev
    by_cases hlast : i = q.length - 1
    · exfalso
      have hzi : q.getD i "" = z := by rw [hlast]; exact getD_last hz
      rw [hzi] at hiV
      exact hzV hiV
    · have hi1 : i + 1 < q.length := by omega
      have hstep := chain_step hq hi1
      rcases hInv.closure _ hiV _ hstep with hwV | ⟨pe, hpe, hpl⟩ | ⟨hwt, hmd⟩
      · have hwmin : lev (q.getD (i + 1) "") ≤ i + 1 :=
          hInv.visitedMin _ hwV (i + 1) (walk_upto hq (i + 1) hi1)
        obtain ⟨i2, h1, h2, h3⟩ := ih (i + 1) (by omega) hi1 hwV hwmin
        exact ⟨i2, by omega, h2, h3⟩
      · exact ⟨i, le_refl i, hi1, pe, hpe, by omega⟩
      · exfalso
        by_cases hl2 : i + 1 = q.length - 1
        · have hqz : q.getD (i + 1) "" = z := by rw [hl2]; exact getD_last hz
          rcases hcase with hlt | rfl
          · omega
          · exact hwt (by rw [hqz])
        · omega

/-! Invariant preservation across the four loop branches. -/

theorem inv_init (f : String → List String) (s t : String) (maxD : ℕ) :
    Inv f s t maxD [] [(s, [s])] (fun _ => 0) := by
  refine ⟨?_, ?_, ?_, ?_, ?_, ?_, ?_, ?_, ?_, ?_⟩
  · intro e he
    rw [List.mem_singleton] at he
    subst he
    exact ⟨⟨rfl, rfl, List.chain'_singleton s⟩, Nat.zero_le _⟩
  · simp
  · intro e he e2 he2
    rw [List.mem_singleton] at he he2
    subst he he2
    simp
  · exact List.not_mem_nil t
  · intro v hv; exact absurd hv (List.not_mem_nil v)
  · intro v hv; exact absurd hv (List.not_mem_nil v)
  · intro v hv; exact absurd hv (List.not_mem_nil v)
  · intro p hp _
    refine ⟨0, ?_, ?_⟩
    · have := walkList_ne_nil hp
      cases p with
      | nil => exact absurd rfl this
      | cons a l => simp
    · right
      exact ⟨[s], by rw [getD_head hp]; exact List.mem_singleton.mpr rfl, by simp⟩
  · intro p hp _ _
    refine ⟨0, ?_, ?_⟩
    · have := walkList_ne_nil hp
      cases p with
      | nil => exact absurd rfl this
      | cons a l => simp
    · right
      exact ⟨[s], by rw [getD_head hp]; exact List.mem_singleton.mpr rfl, by simp⟩
  · intro hst
    subst hst
    exact ⟨[s], List.mem_singleton.mpr rfl⟩

theorem inv_depth {f : String → List String} {s t : String} {maxD : ℕ} {V : List String}
    {rest : List (String × List String)} {lev : String → ℕ} {n : String} {p : List String}
    (hInv : Inv f s t maxD V ((n, p) :: rest) lev)
    (h1 : ¬ n = t) (h2 : maxD ≤ p.length) : Inv f s t maxD V rest lev := by
  refine ⟨?_, hInv.mono.of_cons, ?_, hInv.tFresh, hInv.visitedWalk, hInv.visitedMin,
    ?_, ?_, ?_, ?_⟩
  · exact fun e he => hInv.entries e (List.mem_cons_of_mem _ he)
  · intro e he e2 he2
    exact hInv.spread e (List.mem_cons_of_mem _ he) e2 (List.mem_cons_of_mem _ he2)
  · intro v hv w hw
    rcases hInv.closure v hv w hw with hwV | ⟨pe, hpe, hb⟩ | hd
    · exact Or.inl hwV
    · rcases List.mem_cons.mp hpe with heq | hmem
      · have hwn : w = n := congrArg Prod.fst heq
        have hpep : pe = p := congrArg Prod.snd heq
        refine Or.inr (Or.inr ⟨?_, ?_⟩)
        · rw [hwn]; exact h1
        · rw [hpep] at hb; omega
      · exact Or.inr (Or.inl ⟨pe, hmem, hb⟩)
    · exact Or.inr (Or.inr hd)
  · intro q hq hlen
    obtain ⟨i, hi, hcov⟩ := hInv.cover1 q hq hlen
    rcases hcov with ⟨hv, hl⟩ | ⟨pe, hpe, hpl⟩
    · exact ⟨i, hi, Or.inl ⟨hv, hl⟩⟩
    · rcases List.mem_cons.mp hpe with heq | hmem
      · exfalso
        have hpep : pe = p := congrArg Prod.snd heq
        rw [hpep] at hpl
        omega
      · exact ⟨i, hi, Or.inr ⟨pe, hmem, hpl⟩⟩
  · intro q hq hlen hlast
    obtain ⟨i, hi, hcov⟩ := hInv.cover2 q hq hlen hlast
    rcases hcov with ⟨hv, hl⟩ | ⟨pe, hpe, hpl⟩
    · exact ⟨i, hi, Or.inl ⟨hv, hl⟩⟩
    · rcases List.mem_cons.mp hpe with heq | hmem
      · exfalso
        have hfst : q.getD i "" = n := congrArg Prod.fst heq
        have hpep : pe = p := congrArg Prod.snd heq
        rw [hpep] at hpl
        have hieq : i = q.length - 1 := by omega
        rw [hieq, getD_last hlast] at hfst
        exact h1 hfst.symm
      · exact ⟨i, hi, Or.inr ⟨pe, hmem, hpl⟩⟩
  · intro hst
    obtain ⟨pe, hpe⟩ := hInv.startSeen hst
    rcases List.mem_cons.mp hpe with heq | hmem
    · exact absurd (congrArg Prod.fst heq).symm h1
    · exact ⟨pe, hmem⟩

theorem inv_visited {f : String → List String} {s t : String} {maxD : ℕ} {V : List String}
    {rest : List (String × List String)} {lev : String → ℕ} {n : String} {p : List String}
    (hInv : Inv f s t maxD V ((n, p) :: rest) lev)
    (h1 : ¬ n = t) (h3 : n ∈ V) : Inv f s t maxD V rest lev := by
  refine ⟨?_, hInv.mono.of_cons, ?_, hInv.tFresh, hInv.visitedWalk, hInv.visitedMin,
    ?_, ?_, ?_, ?_⟩
  · exact fun e he => hInv.entries e (List.mem_cons_of_mem _ he)
  · intro e he e2 he2
    exact hInv.spread e (List.mem_cons_of_mem _ he) e2 (List.mem_cons_of_mem _ he2)
  · intro v hv w hw
    rcases hInv.closure v hv w hw with hwV | ⟨pe, hpe, hb⟩ | hd
    · exact Or.inl hwV
    · rcases List.mem_cons.mp hpe with heq | hmem
      · have hwn : w = n := congrArg Prod.fst heq
        exact Or.inl (hwn ▸ h3)
      · exact Or.inr (Or.inl ⟨pe, hmem, hb⟩)
    · exact Or.inr (Or.inr hd)
  · intro q hq hlen
    obtain ⟨i, hi, hcov⟩ := hInv.cover1 q hq hlen
    refine ⟨i, hi, ?_⟩
    rcases hcov with ⟨hv, hl⟩ | ⟨pe, hpe, hpl⟩
    · exact Or.inl ⟨hv, hl⟩
    · rcases List.mem_cons.mp hpe with heq | hmem
      · have hfst : q.getD i "" = n := congrArg Prod.fst heq
        left
        rw [hfst]
        exact ⟨h3, hInv.visitedMin n h3 i (hfst ▸ walk_upto hq i hi)⟩
      · exact Or.inr ⟨pe, hmem, hpl⟩
  · intro q hq hlen hlast
    obtain ⟨i, hi, hcov⟩ := hInv.cover2 q hq hlen hlast
    refine ⟨i, hi, ?_⟩
    rcases hcov with ⟨hv, hl⟩ | ⟨pe, hpe, hpl⟩
    · exact Or.inl ⟨hv, hl⟩
    · rcases List.mem_cons.mp hpe with heq | hmem
      · have hfst : q.getD i "" = n := congrArg Prod.fst heq
        left
        rw [hfst]
        exact ⟨h3, hInv.visitedMin n h3 i (hfst ▸ walk_upto hq i hi)⟩
      · exact Or.inr ⟨pe, hmem, hpl⟩
  · intro hst
    obtain ⟨pe, hpe⟩ := hInv.startSeen hst
    rcases List.mem_cons.mp hpe with heq | hmem
    · exact absurd (congrArg Prod.fst heq).symm h1
    · exact ⟨pe, hmem⟩

theorem inv_expand {f : String → List String} {s t : String} {maxD : ℕ} {V : List String}
    {rest : List (String × List String)} {lev : String → ℕ} {n : String} {p : List String}
    (hInv : Inv f s t maxD V ((n, p) :: rest) lev)
    (h1 : ¬ n = t) (h2 : ¬ maxD ≤ p.length) (h3 : n ∉ V) :
    Inv f s t maxD (n :: V)
      (rest ++ ((f n).filter (fun m => m ∉ n :: V)).map (fun m => (m, p ++ [m])))
      (fun x => if x = n then p.length - 1 else lev x) := by
  have hEG : EntryGood f s (n, p) := (hInv.entries _ (List.mem_cons_self _ _)).1
  have hpne : p ≠ [] := by
    intro he
    rw [he] at hEG
    exact Option.noConfusion hEG.1
  have hppos : 0 < p.length := List.length_pos.mpr hpne
  have hrest_len : ∀ e ∈ rest, p.length ≤ e.2.length := by
    have hm := hInv.mono
    rw [List.pairwise_cons] at hm
    exact fun e he => hm.1 e he
  have hall_len : ∀ e ∈ rest, e.2.length ≤ p.length + 1 := fun e he =>
    hInv.spread (n, p) (List.mem_cons_self _ _) e (List.mem_cons_of_mem _ he)
  have hNmem : ∀ e ∈ ((f n).filter (fun m => m ∉ n :: V)).map (fun m => (m, p ++ [m])),
      ∃ m, m ∈ f n ∧ m ∉ n :: V ∧ e = (m, p ++ [m]) := by
    intro e he
    obtain ⟨m, hm, rfl⟩ := List.mem_map.mp he
    obtain ⟨hmf, hmv⟩ := List.mem_filter.mp hm
    exact ⟨m, hmf, by simpa using hmv, rfl⟩
  have hmin_n : ∀ j, Walk f s n j → p.length - 1 ≤ j := by
    intro j hw
    by_contra hcon
    push_neg at hcon
    obtain ⟨q, hqh, hql, hqc, hqlen⟩ := walkList_of_walk hw
    have hqW : WalkListFrom f s q := ⟨hqh, hqc⟩
    have hqlt : q.length < maxD := by omega
    obtain ⟨i, hi, hcov⟩ := hInv.cover1 q hqW hqlt
    have hentry : ∃ x pe, (x, pe) ∈ (n, p) :: rest ∧ pe.length < p.length := by
      rcases hcov with ⟨hv, hl⟩ | ⟨pe, hpe, hpl⟩
      · obtain ⟨i2, _, hi2b, pe, hpe, hpl⟩ :=
          climb hInv hqW hql h3 (le_of_lt hqlt) (Or.inl hqlt) q.length i (by omega) hi hv hl
        exact ⟨_, pe, hpe, by omega⟩
      · exact ⟨_, pe, hpe, by omega⟩
    obtain ⟨x, pe, hpe, hlt2⟩ := hentry
    rcases List.mem_cons.mp hpe with heq | hmem
    · have hpep : pe = p := congrArg Prod.snd heq
      rw [hpep] at hlt2
      exact lt_irrefl _ hlt2
    · have h5 : p.length ≤ pe.length := hrest_len _ hmem
      omega
  refine ⟨?_, ?_, ?_, ?_, ?_, ?_, ?_, ?_, ?_, ?_⟩
  · -- entries
    intro e he
    rcases List.mem_append.mp he with hr | hN2
    · exact hInv.entries e (List.mem_cons_of_mem _ hr)
    · obtain ⟨m, hmf, _, rfl⟩ := hNmem e hN2
      refine ⟨⟨?_, List.getLast?_concat _, ?_⟩, ?_⟩
      · have hh := hEG.1
        cases p with
        | nil => exact absurd rfl hpne
        | cons a l => simpa using hh
      · refine List.chain'_append.mpr ⟨hEG.2.2, List.chain'_singleton m, ?_⟩
        intro x hx y hy
        rw [hEG.2.1] at hx
        cases hx
        cases hy
        exact hmf
      · simp only [List.length_append, List.length_singleton]
        omega
  · -- mono
    rw [List.pairwise_append]
    refine ⟨hInv.mono.of_cons, ?_, ?_⟩
    · rw [List.pairwise_map]
      have hpw : ∀ (l : List String),
          l.Pairwise (fun a b => (p ++ [a]).length ≤ (p ++ [b]).length) := by
        intro l
        induction l with
        | nil => exact List.Pairwise.nil
        | cons a l ih => exact List.Pairwise.cons (fun b _ => by simp) ih
      exact hpw _
    · intro a ha b hb
      obtain ⟨m, _, _, rfl⟩ := hNmem b hb
      have := hall_len a ha
      simp only [List.length_append, List.length_singleton]
      omega
  · -- spread
    intro e he e2 he2
    rcases List.mem_append.mp he with hr | hN2 <;> rcases List.mem_append.mp he2 with hr2 | hN22
    · exact hInv.spread e (List.mem_cons_of_mem _ hr) e2 (List.mem_cons_of_mem _ hr2)
    · obtain ⟨m, _, _, rfl⟩ := hNmem e2 hN22
      have := hrest_len e hr
      simp only [List.length_append, List.length_singleton]
      omega
    · obtain ⟨m, _, _, rfl⟩ := hNmem e hN2
      have := hall_len e2 hr2
      simp only [List.length_append, List.length_singleton]
      omega
    · obtain ⟨m, _, _, rfl⟩ := hNmem e hN2
      obtain ⟨m2, _, _, rfl⟩ := hNmem e2 hN22
      simp
  · -- tFresh
    intro ht
    rcases List.mem_cons.mp ht with heq | hmem
    · exact h1 heq.symm
    · exact hInv.tFresh hmem
  · -- visitedWalk
    intro v hv
    rcases List.mem_cons.mp hv with rfl | hvV
    · simp only [if_pos rfl]
      exact entry_walk hEG
    · have hvn : v ≠ n := fun he => h3 (he ▸ hvV)
      simp only [if_neg hvn]
      exact hInv.visitedWalk v hvV
  · -- visitedMin
    intro v hv j hw
    rcases List.mem_cons.mp hv with rfl | hvV
    · simp only [if_pos rfl]
      exact hmin_n j hw
    · have hvn : v ≠ n := fun he => h3 (he ▸ hvV)
      simp only [if_neg hvn]
      exact hInv.visitedMin v hvV j hw
  · -- closure
    intro v hv w hw
    rcases List.mem_cons.mp hv with rfl | hvV
    · by_cases hwv : w ∈ v :: V
      · exact Or.inl hwv
      · refine Or.inr (Or.inl ⟨p ++ [w], ?_, ?_⟩)
        · refine List.mem_append.mpr (Or.inr ?_)
          exact List.mem_map.mpr ⟨w, List.mem_filter.mpr ⟨hw, by simpa using hwv⟩, rfl⟩
        · simp only [if_pos, List.length_append, List.length_singleton]
          omega
    · have hvn : v ≠ n := fun he => h3 (he ▸ hvV)
      simp only [if_neg hvn]
      rcases hInv.closure v hvV w hw with hwV | ⟨pe, hpe, hb⟩ | hd
      · exact Or.inl (List.mem_cons_of_mem _ hwV)
      · rcases List.mem_cons.mp hpe with heq | hmem
        · have hwn : w = n := congrArg Prod.fst heq
          exact Or.inl (hwn ▸ List.mem_cons_self n V)
        · exact Or.inr (Or.inl ⟨pe, List.mem_append.mpr (Or.inl hmem), hb⟩)
      · exact Or.inr (Or.inr hd)
  · -- cover1
    intro q hq hlen
    obtain ⟨i, hi, hcov⟩ := hInv.cover1 q hq hlen
    refine ⟨i, hi, ?_⟩
    rcases hcov with ⟨hv, hl⟩ | ⟨pe, hpe, hpl⟩
    · have hxn : q.getD i "" ≠ n := fun he => h3 (he ▸ hv)
      exact Or.inl ⟨List.mem_cons_of_mem _ hv, by simp only [if_neg hxn]; exact hl⟩
    · rcases List.mem_cons.mp hpe with heq | hmem
      · have hfst : q.getD i "" = n := congrArg Prod.fst heq
        have hpep : pe = p := congrArg Prod.snd heq
        left
        rw [hfst]
        refine ⟨List.mem_cons_self n V, ?_⟩
        simp only [if_pos]
        rw [hpep] at hpl
        omega
      · exact Or.inr ⟨pe, List.mem_append.mpr (Or.inl hmem), hpl⟩
  · -- cover2
    intro q hq hlen hlast
    obtain ⟨i, hi, hcov⟩ := hInv.cover2 q hq hlen hlast
    refine ⟨i, hi, ?_⟩
    rcases hcov with ⟨hv, hl⟩ | ⟨pe, hpe, hpl⟩
    · have hxn : q.getD i "" ≠ n := fun he => h3 (he ▸ hv)
      exact Or.inl ⟨List.mem_cons_of_mem _ hv, by simp only [if_neg hxn]; exact hl⟩
    · rcases List.mem_cons.mp hpe with heq | hmem
      · have hfst : q.getD i "" = n := congrArg Prod.fst heq
        have hpep : pe = p := congrArg Prod.snd heq
        left
        rw [hfst]
        refine ⟨List.mem_cons_self n V, ?_⟩
        simp only [if_pos]
        rw [hpep] at hpl
        omega
      · exact Or.inr ⟨pe, List.mem_append.mpr (Or.inl hmem), hpl⟩
  · -- startSeen
    intro hst
    obtain ⟨pe, hpe⟩ := hInv.startSeen hst
    rcases List.mem_cons.mp hpe with heq | hmem
    · exact absurd (congrArg Prod.fst heq).symm h1
    · exact ⟨pe, List.mem_append.mpr (Or.inl hmem)⟩

/-! The master BFS theorem, by functional induction on the loop. -/

theorem bfs_master (g : List (String × List String)) (s t : String) (maxD : ℕ) :
    ∀ V Q, ∀ lev : String → ℕ, Inv (nbrs g) s t maxD V Q lev →
      (bfsAux g t maxD V Q = [] → ∀ m, m ≤ maxD - 1 → ¬ Walk (nbrs g) s t m) ∧
      (bfsAux g t maxD V Q ≠ [] →
        WalkListFrom (nbrs g) s (bfsAux g t maxD V Q) ∧
        (bfsAux g t maxD V Q).getLast? = some t ∧
        (bfsAux g t maxD V Q).length - 1 ≤ maxD - 1 ∧
        ∀ j, Walk (nbrs g) s t j → (bfsAux g t maxD V Q).length - 1 ≤ j) := by
  intro V Q
  induction V, Q using bfsAux.induct g t maxD with
  | case1 visited =>
    intro lev hInv
    rw [bfsAux_nil]
    refine ⟨?_, fun h => absurd rfl h⟩
    intro _ m hm hw
    by_cases hmd : maxD = 0
    · subst hmd
      have hm0 : m = 0 := by omega
      subst hm0
      obtain ⟨pe, hpe⟩ := hInv.startSeen (walk_zero hw)
      exact absurd hpe (List.not_mem_nil _)
    · obtain ⟨q, hqh, hql, hqc, hqlen⟩ := walkList_of_walk hw
      have hqW : WalkListFrom (nbrs g) s q := ⟨hqh, hqc⟩
      have hq_le : q.length ≤ maxD := by omega
      have hcov : PathCovered visited lev [] q := by
        rcases Nat.lt_or_ge q.length maxD with hlt | hge
        · exact hInv.cover1 q hqW hlt
        · exact hInv.cover2 q hqW (by omega) hql
      obtain ⟨i, hi, hc⟩ := hcov
      rcases hc with ⟨hv, hl⟩ | ⟨pe, hpe, _⟩
      · obtain ⟨i2, _, _, pe, hpe, _⟩ :=
          climb hInv hqW hql hInv.tFresh hq_le (Or.inr rfl) q.length i (by omega) hi hv hl
        exact absurd hpe (List.not_mem_nil _)
      · exact absurd hpe (List.not_mem_nil _)
  | case2 visited p rest =>
    intro lev hInv
    rw [bfsAux_found]
    have hEG := (hInv.entries (t, p) (List.mem_cons_self _ _)).1
    have hbound : p.length - 1 ≤ maxD - 1 := (hInv.entries (t, p) (List.mem_cons_self _ _)).2
    have hpne : p ≠ [] := by
      intro he
      rw [he] at hEG
      exact Option.noConfusion hEG.1
    constructor
    · intro he
      exact absurd he hpne
    · intro _
      refine ⟨⟨hEG.1, hEG.2.2⟩, hEG.2.1, hbound, ?_⟩
      intro j hw
      by_contra hcon
      push_neg at hcon
      have hppos : 0 < p.length := List.length_pos.mpr hpne
      obtain ⟨q, hqh, hql, hqc, hqlen⟩ := walkList_of_walk hw
      have hqW : WalkListFrom (nbrs g) s q := ⟨hqh, hqc⟩
      have hqlt : q.length < maxD := by omega
      obtain ⟨i, hi, hcov⟩ := hInv.cover1 q hqW hqlt
      have hentry : ∃ x pe, (x, pe) ∈ (t, p) :: rest ∧ pe.length < p.length := by
        rcases hcov with ⟨hv, hl⟩ | ⟨pe, hpe, hpl⟩
        · obtain ⟨i2, _, hi2b, pe, hpe, hpl⟩ :=
            climb hInv hqW hql hInv.tFresh (le_of_lt hqlt) (Or.inr rfl) q.length i
              (by omega) hi hv hl
          exact ⟨_, pe, hpe, by omega⟩
        · exact ⟨_, pe, hpe, by omega⟩
      obtain ⟨x, pe, hpe, hlt2⟩ := hentry
      rcases List.mem_cons.mp hpe with heq | hmem
      · have hpep : pe = p := congrArg Prod.snd heq
        rw [hpep] at hlt2
        exact lt_irrefl _ hlt2
      · have hm2 := hInv.mono
        rw [List.pairwise_cons] at hm2
        have h5 : p.length ≤ pe.length := hm2.1 (x, pe) hmem
        omega
  | case3 visited n p rest h1 h2 ih =>
    intro lev hInv
    rw [bfsAux_depth g t maxD visited n p rest h1 h2]
    exact ih lev (inv_depth hInv h1 h2)
  | case4 visited n p rest h1 h2 h3 ih =>
    intro lev hInv
    rw [bfsAux_visited g t maxD visited n p rest h1 h2 h3]
    exact ih lev (inv_visited hInv h1 h3)
  | case5 visited n p rest h1 h2 h3 ih =>
    intro lev hInv
    rw [bfsAux_expand g t maxD visited n p rest h1 h2 h3]
    exact ih _ (inv_expand hInv h1 h2 h3)

/-! The graph `findPath` walks over is exactly `getRelatedNodes`:
`nbrs (graphOf σ)` agrees with `relatedIdsOf σ` on every node id. -/

theorem find?_mem_self (a : String) :
    ∀ l : List String, l.find? (fun x => x = a) = if a ∈ l then some a else none := by
  intro l
  induction l with
  | nil => simp
  | cons b l ih =>
    by_cases hb : b = a
    · subst hb
      rw [List.find?_cons_of_pos _ (by simp)]
      simp
    · rw [List.find?_cons_of_neg _ (by simpa using hb), ih]
      by_cases hmem : a ∈ l
      · rw [if_pos hmem, if_pos (List.mem_cons_of_mem _ hmem)]
      · rw [if_neg hmem, if_neg (by
          intro hc
          rcases List.mem_cons.mp hc with heq | hm
          · exact hb heq.symm
          · exact hmem hm)]

theorem nbrs_graphOf (σ : CortexStorage) (a : String) :
    nbrs (graphOf σ) a = relatedIdsOf σ a := by
  unfold nbrs graphOf lookupList
  rw [List.find?_map]
  rw [show ((fun p : String × List String => decide (p.1 = a)) ∘
      (fun x => (x, relatedIdsOf σ x))) = fun x => decide (x = a) from rfl]
  rw [find?_mem_self]
  by_cases hmem : a ∈ (σ.edges.map GraphEdge.fromNode).dedup
  · rw [if_pos hmem]
    rfl
  · rw [if_neg hmem]
    have hfil : σ.edges.filter (fun e => e.fromNode = a) = [] := by
      rw [List.filter_eq_nil_iff]
      intro e he hfa
      exact hmem (List.mem_dedup.mpr (List.mem_map.mpr ⟨e, he, by simpa using hfa⟩))
    show ([] : List String) = relatedIdsOf σ a
    unfold relatedIdsOf getRelatedNodes
    rw [hfil]
    rfl

/-- C7 (amended).  `findPath` is a breadth-first search over the
related-node graph, but its `path.length >= maxDepth` check discards
entries before expansion, so only targets within `maxDepth - 1` hops
(natural subtraction) are reachable: if the result is empty there is no
walk from `fromId` to `toId` of at most `maxDepth - 1` hops; if it is
nonempty it is a genuine walk starting at `fromId`, ending at `toId`,
of at most `maxDepth - 1` hops, and of minimal hop count among all
walks between the two. -/
theorem C7_findPath_amended (σ : CortexStorage) (fromId toId : String) (maxD : ℕ) :
    (findPath σ fromId toId maxD = [] →
      ∀ m, m ≤ maxD - 1 → ¬ Walk (relatedIdsOf σ) fromId toId m) ∧
      (findPath σ fromId toId maxD ≠ [] →
        WalkListFrom (relatedIdsOf σ) fromId (findPath σ fromId toId maxD) ∧
        (findPath σ fromId toId maxD).getLast? = some toId ∧
        (findPath σ fromId toId maxD).length - 1 ≤ maxD - 1 ∧
        ∀ j, Walk (relatedIdsOf σ) fromId toId j →
          (findPath σ fromId toId maxD).length - 1 ≤ j) := by
  have hf : nbrs (graphOf σ) = relatedIdsOf σ := funext (nbrs_graphOf σ)
  have h := bfs_master (graphOf σ) fromId toId maxD [] [(fromId, [fromId])] (fun _ => 0)
    (inv_init _ fromId toId maxD)
  rw [hf] at h
  unfold findPath
  exact h

/-! Concrete evaluation of `findPath` on the four-node chain
`a → b → c → d` of `storePath`. -/

theorem graphOf_storePath :
    graphOf storePath = [("a", ["b"]), ("b", ["c"]), ("c", ["d"])] := rfl

theorem relIds_storePath_a : relatedIdsOf storePath "a" = ["b"] := rfl

theorem relIds_storePath_b : relatedIdsOf storePath "b" = ["c"] := rfl

theorem relIds_storePath_c : relatedIdsOf storePath "c" = ["d"] := rfl

theorem findPath_ad : findPath storePath "a" "d" 3 = [] := by
  unfold findPath
  rw [graphOf_storePath]
  have h1 : bfsAux [("a", ["b"]), ("b", ["c"]), ("c", ["d"])] "d" 3 [] [("a", ["a"])] =
      bfsAux [("a", ["b"]), ("b", ["c"]), ("c", ["d"])] "d" 3 ["a"] [("b", ["a", "b"])] := by
    rw [bfsAux.eq_def]; rfl
  have h2 : bfsAux [("a", ["b"]), ("b", ["c"]), ("c", ["d"])] "d" 3 ["a"] [("b", ["a", "b"])] =
      bfsAux [("a", ["b"]), ("b", ["c"]), ("c", ["d"])] "d" 3 ["b", "a"]
        [("c", ["a", "b", "c"])] := by
    rw [bfsAux.eq_def]; rfl
  have h3 : bfsAux [("a", ["b"]), ("b", ["c"]), ("c", ["d"])] "d" 3 ["b", "a"]
      [("c", ["a", "b", "c"])] =
      bfsAux [("a", ["b"]), ("b", ["c"]), ("c", ["d"])] "d" 3 ["b", "a"] [] := by
    rw [bfsAux.eq_def]; rfl
  have h4 : bfsAux [("a", ["b"]), ("b", ["c"]), ("c", ["d"])] "d" 3 ["b", "a"] [] = [] := by
    rw [bfsAux.eq_def]
  exact h1.trans (h2.trans (h3.trans h4))

theorem findPath_ac : findPath storePath "a" "c" 3 = ["a", "b", "c"] := by
  unfold findPath
  rw [graphOf_storePath]
  have h1 : bfsAux [("a", ["b"]), ("b", ["c"]), ("c", ["d"])] "c" 3 [] [("a", ["a"])] =
      bfsAux [("a", ["b"]), ("b", ["c"]), ("c", ["d"])] "c" 3 ["a"] [("b", ["a", "b"])] := by
    rw [bfsAux.eq_def]; rfl
  have h2 : bfsAux [("a", ["b"]), ("b", ["c"]), ("c", ["d"])] "c" 3 ["a"] [("b", ["a", "b"])] =
      bfsAux [("a", ["b"]), ("b", ["c"]), ("c", ["d"])] "c" 3 ["b", "a"]
        [("c", ["a", "b", "c"])] := by
    rw [bfsAux.eq_def]; rfl
  have h3 : bfsAux [("a", ["b"]), ("b", ["c"]), ("c", ["d"])] "c" 3 ["b", "a"]
      [("c", ["a", "b", "c"])] = ["a", "b", "c"] := by
    rw [bfsAux.eq_def]; rfl
  exact h1.trans (h2.trans h3)

/-- C7 (counterexample).  In the edge chain `a → b → c → d` of
`storePath` there is a walk of exactly `3` hops from `a` to `d`, yet
`findPath storePath "a" "d" 3` — `maxDepth = 3`, which the claim says
admits paths of up to `3` hops — returns the empty sequence: the
`path.length >= maxDepth` check cuts the search off after
`maxDepth - 1` hops. -/
theorem C7_counterexample :
    Walk (relatedIdsOf storePath) "a" "d" 3 ∧ findPath storePath "a" "d" 3 = [] := by
  constructor
  · exact Walk.step (by rw [relIds_storePath_a]; exact List.mem_singleton.mpr rfl)
      (Walk.step (by rw [relIds_storePath_b]; exact List.mem_singleton.mpr rfl)
        (Walk.step (by rw [relIds_storePath_c]; exact List.mem_singleton.mpr rfl)
          (Walk.refl "d")))
  · exact findPath_ad

/-- C7 (witness): on the chain store, `findPath storePath "a" "c" 3` is
nonempty, and the amended theorem yields that it is a walk from `a`
ending at `c` of at most `2` hops, minimal among all walks from `a` to
`c`. -/
theorem C7_witness :
    findPath storePath "a" "c" 3 ≠ [] ∧
      WalkListFrom (relatedIdsOf storePath) "a" (findPath storePath "a" "c" 3) ∧
      (findPath storePath "a" "c" 3).getLast? = some "c" ∧
      (findPath storePath "a" "c" 3).length - 1 ≤ 3 - 1 ∧
      ∀ j, Walk (relatedIdsOf storePath) "a" "c" j →
        (findPath storePath "a" "c" 3).length - 1 ≤ j := by
  have hne : findPath storePath "a" "c" 3 ≠ [] := by
    rw [findPath_ac]
    exact List.cons_ne_nil _ _
  have h := (C7_findPath_amended storePath "a" "c" 3).2 hne
  exact ⟨hne, h.1, h.2.1, h.2.2.1, h.2.2.2⟩

end MindMesh
